import Mathlib

/-!
Verification development for the NEAT chromosome core
(`src/neat/chromosome.py`, classes `Chromosome` and `FFChromosome`).

The Python code is shallowly embedded as pure Lean functions.  Randomness
(`random.random`, `random.choice`, `random.randint`, `random.gauss`) is
modelled as explicit oracle arguments: each call site receives the drawn
value (for `choice`/`randint` a natural number that is reduced modulo the
size of the range, exactly the constraint the Python call guarantees;
for `random`/`gauss` the drawn rational itself).  Python dictionaries are
modelled as association lists with Python's update semantics (assignment
to an existing key replaces the stored value in place, assignment to a
fresh key appends); Python 2 iteration order over `values()`/`keys()` is
an arbitrary fixed order, determinized here as insertion order, and every
random index that selects from such an iteration is universally
quantified.  Python exceptions (`IndexError` from `random.choice` on an
empty sequence, `ValueError` from `list.index` / `max` on empty input)
are modelled by `Option`, `none` meaning the call raises.

The node-gene and connection-gene classes live in the genes module of the
repository, which is not part of `src/`; their operations (`copy`,
`split`, `get_child`, `mutate`, the natural ordering used by `max` and
`>`) are modelled from the spec where marked.
-/

namespace Neat

/-- Node role: the `type` attribute (`'INPUT'` / `'OUTPUT'` / `'HIDDEN'`)
of a node gene. -/
inductive NodeType where
  | INPUT
  | OUTPUT
  | HIDDEN
deriving DecidableEq

/-- Modelled from the spec: the node-gene class is in the genes module,
not under `src/`.  Per the spec a node gene carries a 1-based identity, a
role, an activation kind (for non-input nodes) and bias/response
parameters mutated by Gaussian perturbation. -/
structure NodeGene where
  id : Nat
  type : NodeType
  bias : ℚ
  response : ℚ
  activation : String
deriving DecidableEq

/-- Modelled from the spec: the connection-gene class is in the genes
module, not under `src/`.  A connection gene is a directed weighted edge
between two node identities with an enabled flag; `(innodeid, outnodeid)`
is its `key`. -/
structure ConnGene where
  innodeid : Nat
  outnodeid : Nat
  weight : ℚ
  enabled : Bool
deriving DecidableEq

/-- The `key` property of a connection gene: the ordered pair of endpoint
identities. -/
def ConnGene.key (g : ConnGene) : Nat × Nat :=
  (g.innodeid, g.outnodeid)

/-- Modelled from the spec: `ConnectionGene.split(node_id)` (genes module,
not under `src/`).  Splitting a connection inserts a new hidden node
between its endpoints: the first child runs source→newNode with
passthrough weight 1, the second newNode→target carrying the original
weight; the original connection is disabled (see `mutate_add_node_core`). -/
def ConnGene.split (g : ConnGene) (nodeId : Nat) : ConnGene × ConnGene :=
  (⟨g.innodeid, nodeId, 1, true⟩, ⟨nodeId, g.outnodeid, g.weight, true⟩)

/-- Modelled from the spec: homologous ("matching") connection-gene
inheritance — the child takes each of weight/enabled from one parent or
the other, decided by an independent coin per attribute. -/
def ConnGene.get_child (g1 g2 : ConnGene) (wCoin eCoin : Bool) : ConnGene :=
  { innodeid := g1.innodeid
    outnodeid := g1.outnodeid
    weight := if wCoin then g1.weight else g2.weight
    enabled := if eCoin then g1.enabled else g2.enabled }

/-- Modelled from the spec: homologous node-gene inheritance — identity
and role come from the first (fitter) parent, bias/response are each
chosen from one positional parent at random. -/
def NodeGene.get_child (n1 n2 : NodeGene) (bCoin rCoin : Bool) : NodeGene :=
  { n1 with
    bias := if bCoin then n1.bias else n2.bias
    response := if rCoin then n1.response else n2.response }

/-! ### Python dictionary model

`conn_genes` is a Python dict keyed by the connection key.  We model it
as an association list: assignment `d[k] = v` replaces in place when `k`
is present and appends otherwise (`dictInsert`); `d[k]` lookup is
`dictFind`; `in` is `dictMem`. -/

/-- Python dict assignment `d[k] = v`. -/
def dictInsert {ν : Type} : List ((Nat × Nat) × ν) → Nat × Nat → ν → List ((Nat × Nat) × ν)
  | [], k, v => [(k, v)]
  | kv :: rest, k, v => if kv.1 = k then (k, v) :: rest else kv :: dictInsert rest k v

/-- Python dict lookup `d[k]`, `none` modelling `KeyError`. -/
def dictFind {ν : Type} : List ((Nat × Nat) × ν) → Nat × Nat → Option ν
  | [], _ => none
  | kv :: rest, k => if kv.1 = k then some kv.2 else dictFind rest k

/-- Python dict membership `k in d`. -/
def dictMem {ν : Type} (l : List ((Nat × Nat) × ν)) (k : Nat × Nat) : Bool :=
  (dictFind l k).isSome


/-! ### Configuration

The configuration object consumed by the chromosome core (read-only;
a single process-wide configuration is shared by every chromosome, as in
the source where `Config` holds class-level attributes). -/

structure Config where
  input_nodes : Nat
  output_nodes : Nat
  prob_addnode : ℚ
  prob_addconn : ℚ
  prob_deleteconn : ℚ
  weight_stdev : ℚ
  excess_coefficient : ℚ
  disjoint_coefficient : ℚ
  weight_coefficient : ℚ
  nn_activation : String
deriving DecidableEq

/-- Entries of the `conn_genes` dictionary. -/
abbrev ConnList := List ((Nat × Nat) × ConnGene)

/-- The `Chromosome` object state (`chromosome.py`, lines 15-33).  The
process-wide `__next_id` counter is not modelled; factory chromosomes get
`ID = 0` and crossover receives the freshly allocated id as an argument
(see `crossoverStore` for the allocation model).  `fitness` and
`species_id` are `None` until the external caller sets them. -/
structure Chromosome where
  ID : Nat
  parent1_id : Nat
  parent2_id : Nat
  num_inputs : Nat
  num_outputs : Nat
  node_genes : List NodeGene
  conn_genes : ConnList
  fitness : Option ℚ
  species_id : Option Int
deriving DecidableEq

/-- `random.choice(seq)`: the oracle supplies an arbitrary natural, reduced
modulo the length; on an empty sequence the call raises `IndexError`
(`none`). -/
def pyChoice {α : Type} (l : List α) (r : Nat) : Option α :=
  l.get? (r % l.length)

/-! ### Factory constructors (`chromosome.py`, lines 253-316) -/

/-- Input node genes created by `create_unconnected` (ids `1..input_nodes`). -/
def mkInputNodes (cfg : Config) : List NodeGene :=
  (List.range cfg.input_nodes).map fun i =>
    { id := i + 1, type := .INPUT, bias := 0, response := 0, activation := "" }

/-- Output node genes created by `create_unconnected`
(ids `input_nodes+1 .. input_nodes+output_nodes`). -/
def mkOutputNodes (cfg : Config) : List NodeGene :=
  (List.range cfg.output_nodes).map fun i =>
    { id := cfg.input_nodes + 1 + i, type := .OUTPUT, bias := 0, response := 0,
      activation := cfg.nn_activation }

/-- `Chromosome.create_unconnected` (lines 253-273): input node genes then
output node genes, no connections. -/
def create_unconnected (cfg : Config) : Chromosome :=
  { ID := 0
    parent1_id := 0
    parent2_id := 0
    num_inputs := cfg.input_nodes
    num_outputs := cfg.output_nodes
    node_genes := mkInputNodes cfg ++ mkOutputNodes cfg
    conn_genes := []
    fitness := none
    species_id := none }

/-- Inner loop of `create_fully_connected`: connect every input node to
the output node `outId`, drawing one Gaussian weight per connection
(`w` is the stream of `random.gauss(0, weight_stdev)` draws, `j` the
number of draws consumed so far). -/
def connect_inputs_to (w : Nat → ℚ) (inputs : List NodeGene) (outId : Nat) :
    Nat → ConnList → ConnList × Nat
  | j, conns =>
    match inputs with
    | [] => (conns, j)
    | inp :: rest =>
      connect_inputs_to w rest outId (j + 1)
        (dictInsert conns (inp.id, outId) ⟨inp.id, outId, w j, true⟩)

/-- Outer loop of `create_fully_connected` over `node_genes`, skipping
non-output genes. -/
def fully_go (w : Nat → ℚ) (inputs : List NodeGene) :
    List NodeGene → Nat → ConnList → ConnList
  | [], _, conns => conns
  | ng :: rest, j, conns =>
    if ng.type = .OUTPUT then
      let p := connect_inputs_to w inputs ng.id j conns
      fully_go w inputs rest p.2 p.1
    else fully_go w inputs rest j conns

/-- `Chromosome.create_fully_connected` (lines 296-316). -/
def create_fully_connected (cfg : Config) (w : Nat → ℚ) : Chromosome :=
  let c := create_unconnected cfg
  { c with
    conn_genes := fully_go w (c.node_genes.take cfg.input_nodes) c.node_genes 0 c.conn_genes }

/-- Loop of `create_minimally_connected` over `node_genes`: each output
node gets one connection from a random input node (`cOr` the stream of
`random.choice` draws, `wOr` the stream of Gaussian weight draws, `j` the
number of outputs processed so far).  `none` models the `IndexError`
raised by `random.choice` on an empty input slice. -/
def min_go (cfg : Config) (cOr : Nat → Nat) (wOr : Nat → ℚ) (allNodes : List NodeGene) :
    List NodeGene → Nat → ConnList → Option ConnList
  | [], _, conns => some conns
  | ng :: rest, j, conns =>
    if ng.type = .OUTPUT then
      match pyChoice (allNodes.take cfg.input_nodes) (cOr j) with
      | none => none
      | some inp =>
        min_go cfg cOr wOr allNodes rest (j + 1)
          (dictInsert conns (inp.id, ng.id) ⟨inp.id, ng.id, wOr j, true⟩)
    else min_go cfg cOr wOr allNodes rest j conns

/-- `Chromosome.create_minimally_connected` (lines 275-294). -/
def create_minimally_connected (cfg : Config) (cOr : Nat → Nat) (wOr : Nat → ℚ) :
    Option Chromosome :=
  match min_go cfg cOr wOr (create_unconnected cfg).node_genes
      (create_unconnected cfg).node_genes 0 (create_unconnected cfg).conn_genes with
  | none => none
  | some conns => some { create_unconnected cfg with conn_genes := conns }

/-! ### Mutation operators (`chromosome.py`, lines 112-163) -/

/-- `Chromosome._mutate_add_node` (lines 112-120).  `none` models the
`IndexError` raised by `random.choice(self.conn_genes.values())` when the
chromosome has no connection genes; the exception propagates before any
part of the chromosome is modified.  The split connection is disabled in
place (modelled from the spec: the genes module's `split` disables the
original).  Returns the new node gene and the split connection, used by
the feedforward override. -/
def mutate_add_node_core (cfg : Config) (c : Chromosome) (choiceIdx : Nat) :
    Option (Chromosome × NodeGene × ConnGene) :=
  match c.conn_genes.get? (choiceIdx % c.conn_genes.length) with
  | none => none
  | some kv =>
    let conn_to_split := kv.2
    let ng : NodeGene :=
      { id := c.node_genes.length + 1, type := .HIDDEN, bias := 0, response := 0,
        activation := cfg.nn_activation }
    let p := conn_to_split.split ng.id
    let conns₁ : ConnList := c.conn_genes.map fun kv' =>
      if kv'.1 = conn_to_split.key then (kv'.1, { kv'.2 with enabled := false }) else kv'
    some
      ({ c with
          node_genes := c.node_genes ++ [ng]
          conn_genes := dictInsert (dictInsert conns₁ p.1.key p.1) p.2.key p.2 },
        ng, conn_to_split)

/-- The candidate scan of `Chromosome._mutate_add_connection`
(lines 130-142): walk the in-node × out-node pairs in loop order, count
the pairs whose key is absent, and return the `n`-th such pair (`none`
when the loop ends without reaching `n`). -/
def scanB (conns : ConnList) : List (NodeGene × NodeGene) → Nat → Option (NodeGene × NodeGene)
  | [], _ => none
  | ab :: rest, n =>
    if dictMem conns (ab.1.id, ab.2.id) then scanB conns rest n
    else if n = 0 then some ab
    else scanB conns rest (n - 1)

/-- `Chromosome._mutate_add_connection` (lines 122-142), the recurrent
variant: any node may feed any non-input node. -/
def mutate_add_connection (c : Chromosome) (nIdx : Nat) (w : ℚ) : Chromosome :=
  let total : Int := ((c.node_genes.length : Int) - c.num_inputs) * c.node_genes.length
  let remaining : Int := total - c.conn_genes.length
  if 0 < remaining then
    let n := nIdx % remaining.toNat
    let cands := c.node_genes.flatMap fun a =>
      (c.node_genes.drop c.num_inputs).map fun b => (a, b)
    match scanB c.conn_genes cands n with
    | none => c
    | some ab =>
      { c with
        conn_genes := dictInsert c.conn_genes (ab.1.id, ab.2.id) ⟨ab.1.id, ab.2.id, w, true⟩ }
  else c

/-- `Chromosome._mutate_delete_connection` (lines 160-163): with more than
one connection gene, delete one chosen by `random.choice(keys())`. -/
def mutate_delete_connection (c : Chromosome) (choiceIdx : Nat) : Chromosome :=
  if 1 < c.conn_genes.length then
    { c with conn_genes := c.conn_genes.eraseIdx (choiceIdx % c.conn_genes.length) }
  else c

/-- `Chromosome._mutate_delete_node` (lines 144-158): with at least one
hidden node, pick `idx = randint(num_inputs + num_outputs, len - 1)`,
drop every connection touching that node, then drop the node. -/
def mutate_delete_node (c : Chromosome) (rIdx : Nat) : Chromosome :=
  let lo := c.num_inputs + c.num_outputs
  if lo < c.node_genes.length then
    let idx := lo + rIdx % (c.node_genes.length - lo)
    match c.node_genes.get? idx with
    | none => c
    | some node =>
      { c with
        conn_genes := c.conn_genes.filter fun kv =>
          !(kv.2.innodeid == node.id || kv.2.outnodeid == node.id)
        node_genes := c.node_genes.eraseIdx idx }
  else c

/-- Weight perturbation half of the else-branch of `mutate`
(lines 49-50): every connection gene's `mutate` is called in iteration
order.  Modelled from the spec: the gene's `mutate` replaces the weight
by a Gaussian jitter of it or a full reset; the oracle `cw` supplies the
resulting weight of the `j`-th gene. -/
def perturb_conns (cw : Nat → ℚ) : ConnList → Nat → ConnList
  | [], _ => []
  | kv :: rest, j => (kv.1, { kv.2 with weight := cw j }) :: perturb_conns cw rest (j + 1)

/-- Bias/response perturbation half of the else-branch of `mutate`
(lines 52-54): every node gene past the inputs is mutated.  Modelled from
the spec: the gene's `mutate` perturbs bias and response; the oracles
supply the resulting values. -/
def perturb_nodes (nb nr : Nat → ℚ) : List NodeGene → Nat → List NodeGene
  | [], _ => []
  | ng :: rest, j =>
    { ng with bias := nb j, response := nr j } :: perturb_nodes nb nr rest (j + 1)

/-- The weight/bias perturbation branch of `mutate` (lines 47-54). -/
def mutate_perturb (c : Chromosome) (cw nb nr : Nat → ℚ) : Chromosome :=
  { c with
    conn_genes := perturb_conns cw c.conn_genes 0
    node_genes :=
      c.node_genes.take c.num_inputs ++ perturb_nodes nb nr (c.node_genes.drop c.num_inputs) 0 }

/-- Which branch of `mutate` runs.  `Chromosome.mutate` (lines 35-56)
binds `r = random.random` — the function, not a value — so each threshold
comparison `r() < p` consumes a fresh uniform draw. -/
inductive MBranch where
  | addNode
  | addConn
  | delConn
  | perturb
deriving DecidableEq

/-- Branch selection of `Chromosome.mutate` (lines 38-47): three
successive fresh uniform draws `r1, r2, r3` are compared against the
thresholds in the fixed order add-node, add-connection,
delete-connection, else perturb. -/
def branchOf (cfg : Config) (r1 r2 r3 : ℚ) : MBranch :=
  if r1 < cfg.prob_addnode then .addNode
  else if r2 < cfg.prob_addconn then .addConn
  else if r3 < cfg.prob_deleteconn then .delConn
  else .perturb

/-- The random draws consumed by one `mutate` call. -/
structure MutRand where
  r1 : ℚ
  r2 : ℚ
  r3 : ℚ
  choiceIdx : Nat
  nIdx : Nat
  gaussW : ℚ
  connW : Nat → ℚ
  nodeB : Nat → ℚ
  nodeR : Nat → ℚ

/-- `Chromosome.mutate` (lines 35-56). -/
def mutate (cfg : Config) (c : Chromosome) (r : MutRand) : Option Chromosome :=
  match branchOf cfg r.r1 r.r2 r.r3 with
  | .addNode => (mutate_add_node_core cfg c r.choiceIdx).map Prod.fst
  | .addConn => some (mutate_add_connection c r.nIdx r.gaussW)
  | .delConn => some (mutate_delete_connection c r.choiceIdx)
  | .perturb => some (mutate_perturb c r.connW r.nodeB r.nodeR)

/-! ### Crossover (`chromosome.py`, lines 58-110) -/

/-- Python 2 `>` on `fitness` values: `None` compares below every number
and `None > None` is false. -/
def pyGtF : Option ℚ → Option ℚ → Bool
  | some a, some b => a > b
  | some _, none => true
  | none, _ => false

/-- The coin flips consumed by one `crossover` call (one pair of coins
per homologous connection-gene pair and per matching node-gene pair). -/
structure CrossRand where
  wCoin : Nat → Bool
  eCoin : Nat → Bool
  bCoin : Nat → Bool
  rCoin : Nat → Bool

/-- Connection-gene half of `Chromosome._inherit_genes` (lines 87-101):
walk the fitter parent's connection genes; keys absent from the other
parent are copied, matching keys produce a homologous child gene.  The
genes module's `is_same_innov` is always true for genes with equal keys
under global innovation numbers (code comment, line 95), so the
homologous branch is taken.  `m` counts the fitter parent's genes
processed so far (indexing the coin streams). -/
def inherit_conns (p2conns : ConnList) (r : CrossRand) :
    List ((Nat × Nat) × ConnGene) → Nat → ConnList → ConnList
  | [], _, acc => acc
  | kv :: rest, m, acc =>
    match dictFind p2conns kv.1 with
    | none => inherit_conns p2conns r rest (m + 1) (dictInsert acc kv.1 kv.2)
    | some cg2 =>
      let new_gene := kv.2.get_child cg2 (r.wCoin m) (r.eCoin m)
      inherit_conns p2conns r rest (m + 1) (dictInsert acc new_gene.key new_gene)

/-- Node-gene half of `Chromosome._inherit_genes` (lines 103-110):
positional walk over the fitter parent's node genes; positions past the
other parent's length (`IndexError`) are copied unchanged. -/
def inherit_nodes (p2nodes : List NodeGene) (r : CrossRand) :
    List NodeGene → Nat → List NodeGene
  | [], _ => []
  | ng :: rest, m =>
    (match p2nodes.get? m with
      | some ng2 => ng.get_child ng2 (r.bCoin m) (r.rCoin m)
      | none => ng) :: inherit_nodes p2nodes r rest (m + 1)

/-- The child built by `crossover` (lines 74-78): a fresh chromosome of
the caller's configuration, genealogy `(self.ID, other.ID)`, genes
inherited from the parent pair `(p1, p2)` (fitter first), species id from
the fitter parent.  `nid` is the freshly allocated chromosome id. -/
def buildChild (cfg : Config) (s o p1 p2 : Chromosome) (nid : Nat) (r : CrossRand) :
    Chromosome :=
  { ID := nid
    parent1_id := s.ID
    parent2_id := o.ID
    num_inputs := cfg.input_nodes
    num_outputs := cfg.output_nodes
    node_genes := inherit_nodes p2.node_genes r p1.node_genes 0
    conn_genes := inherit_conns p2.conn_genes r p1.conn_genes 0 []
    fitness := none
    species_id := p1.species_id }

/-- `Chromosome.crossover` (lines 58-81): the species assertion fails
(`none`) on parents of different species; otherwise the parent with
strictly greater fitness becomes `parent1`, ties and `self < other` both
select `other` (line 66: `if self.fitness > other.fitness`). -/
def crossover (cfg : Config) (s o : Chromosome) (nid : Nat) (r : CrossRand) :
    Option Chromosome :=
  if s.species_id = o.species_id then
    some
      (if pyGtF s.fitness o.fitness then buildChild cfg s o s o nid r
        else buildChild cfg s o o s nid r)
  else none

/-- Heap model for the frame property of `crossover`: the population is a
store of chromosomes, `crossover` reads the two parents and allocates the
child at a fresh position (the process-wide id counter is modelled by the
store length).  In the source every assignment inside `crossover` and
`_inherit_genes` targets the freshly constructed child (`child.…` /
`self.…` with `self` bound to the child), so the store transformer
appends the child and leaves every existing entry in place. -/
def crossoverStore (st : List Chromosome) (i j : Nat) (r : CrossRand) (cfg : Config) :
    Option (List Chromosome) :=
  match st.get? i, st.get? j with
  | some s, some o => (crossover cfg s o (st.length + 1) r).map fun ch => st ++ [ch]
  | _, _ => none

/-! ### Compatibility distance (`chromosome.py`, lines 165-202) -/

/-- Modelled from the spec: the natural ordering of connection genes
(used by `max` on line 180 and `>` on line 186) compares by weight.
`max` over the `values()` of an empty dictionary raises `ValueError`
(`none`); only the weight of the maximal gene is observable downstream. -/
def maxConnWeight : ConnList → Option ℚ
  | [] => none
  | kv :: rest => some (rest.foldl (fun a kv' => max a kv'.2.weight) kv.2.weight)

/-- `math.fabs` (line 192). -/
def pyFabs (q : ℚ) : ℚ :=
  if q < 0 then -q else q

/-- The accumulator loop of `distance` (lines 182-193) over the larger
chromosome's connection genes, carrying
`(weight_diff, matching, disjoint, excess)`. -/
def distLoop (c2conns : ConnList) (maxW : ℚ) :
    List ((Nat × Nat) × ConnGene) → ℚ × Nat × Nat × Nat → ℚ × Nat × Nat × Nat
  | [], acc => acc
  | kv :: rest, (wd, m, dis, exc) =>
    match dictFind c2conns kv.1 with
    | none =>
      if maxW < kv.2.weight then distLoop c2conns maxW rest (wd, m, dis, exc + 1)
      else distLoop c2conns maxW rest (wd, m, dis + 1, exc)
    | some cg2 =>
      distLoop c2conns maxW rest (wd + pyFabs (kv.2.weight - cg2.weight), m + 1, dis, exc)

/-- `Chromosome.distance` (lines 165-202).  `chromo1` is the chromosome
with strictly more connection genes (ties keep `other` as `chromo1`);
`none` models the `ValueError` from `max` when `chromo2` has no
connection genes. -/
def distance (cfg : Config) (s o : Chromosome) : Option ℚ :=
  let c1 := if o.conn_genes.length < s.conn_genes.length then s else o
  let c2 := if o.conn_genes.length < s.conn_genes.length then o else s
  match maxConnWeight c2.conn_genes with
  | none => none
  | some mw =>
    let acc := distLoop c2.conn_genes mw c1.conn_genes (0, 0, 0, 0)
    let disjointFinal : Int := (acc.2.2.1 : Int) + ((c2.conn_genes.length : Int) - acc.2.1)
    some
      (cfg.excess_coefficient * acc.2.2.2 + cfg.disjoint_coefficient * disjointFinal +
        if 0 < acc.2.1 then cfg.weight_coefficient * (acc.1 / acc.2.1) else 0)

/-! ### The feedforward variant `FFChromosome`
(`chromosome.py`, lines 319-414) -/

/-- `FFChromosome`: a chromosome plus `__node_order`, the topological
order over hidden node ids. -/
structure FFChromosome where
  base : Chromosome
  node_order : List Nat
deriving DecidableEq

/-- `list.index` (first position of `x`), `none` modelling `ValueError`
when `x` is absent. -/
def idxOf? : List Nat → Nat → Option Nat
  | [], _ => none
  | y :: l, x => if y = x then some 0 else (idxOf? l x).map (· + 1)

/-- Python `list.insert(p, x)` (clamping `p` to the length, as Python
does). -/
def insertAt (l : List Nat) (p : Nat) (x : Nat) : List Nat :=
  l.take p ++ x :: l.drop p

/-- `FFChromosome.__is_connection_feedforward` (lines 383-385), with the
Python short-circuit evaluation made explicit: the `node_order.index`
calls are only reached when neither endpoint test fires, and raise
(`none`) when the endpoint is not a hidden node in the order. -/
def isConnFFb (order : List Nat) (a b : NodeGene) : Option Bool :=
  if a.type = .INPUT then some true
  else if b.type = .OUTPUT then some true
  else
    match idxOf? order a.id, idxOf? order b.id with
    | some i, some j => some (decide (i < j))
    | _, _ => none

/-- The candidate scan of `FFChromosome._mutate_add_connection`
(lines 367-381): like `scanB` but only pairs passing the feedforward
predicate are counted; the outer `none` propagates a `ValueError` raised
by the predicate. -/
def scanFF (conns : ConnList) (order : List Nat) :
    List (NodeGene × NodeGene) → Nat → Option (Option (NodeGene × NodeGene))
  | [], _ => some none
  | ab :: rest, n =>
    if dictMem conns (ab.1.id, ab.2.id) then scanFF conns order rest n
    else
      match isConnFFb order ab.1 ab.2 with
      | none => none
      | some false => scanFF conns order rest n
      | some true => if n = 0 then some (some ab) else scanFF conns order rest (n - 1)

/-- `sum(range(n))`. -/
def sumRange (n : Nat) : Nat :=
  (List.range n).sum

/-- The in-node slice `self.node_genes[:num_inputs] +
self.node_genes[-num_hidden:]` of line 369.  Python's `[-0:]` slice is
the whole list, so with no hidden nodes every node (outputs included)
appears as a candidate source. -/
def ffInSlice (nodes : List NodeGene) (numInputs numHidden : Nat) : List NodeGene :=
  nodes.take numInputs ++ (if numHidden = 0 then nodes else nodes.drop (nodes.length - numHidden))

/-- `FFChromosome._mutate_add_connection` (lines 355-381). -/
def ff_mutate_add_connection (c : FFChromosome) (nIdx : Nat) (w : ℚ) : Option FFChromosome :=
  let num_hidden := c.node_order.length
  let num_output : Int :=
    (c.base.node_genes.length : Int) - c.base.num_inputs - num_hidden
  let total : Int :=
    (num_hidden + num_output) * ((c.base.num_inputs : Int) + num_hidden) -
      sumRange (num_hidden + 1)
  let remaining : Int := total - c.base.conn_genes.length
  if 0 < remaining then
    let n := nIdx % remaining.toNat
    let cands := (ffInSlice c.base.node_genes c.base.num_inputs num_hidden).flatMap fun a =>
      (c.base.node_genes.drop c.base.num_inputs).map fun b => (a, b)
    match scanFF c.base.conn_genes c.node_order cands n with
    | none => none
    | some none => some c
    | some (some ab) =>
      some
        { c with
          base :=
            { c.base with
              conn_genes :=
                dictInsert c.base.conn_genes (ab.1.id, ab.2.id) ⟨ab.1.id, ab.2.id, w, true⟩ } }
  else some c

/-- `FFChromosome._mutate_add_node` (lines 337-353): after the base
split, the new hidden node id is inserted into `__node_order` at a
uniformly random position of `[mini, maxi]` — after the presynaptic
node's position when it is hidden (else at 0), before the postsynaptic
node's position when it is hidden (else at the end).  `none` propagates
the `IndexError` of the base operator, an out-of-range node lookup, a
`ValueError` from `node_order.index`, or `randint` on an empty range.
The closing length assertion (line 352) always holds on reachable states
and is not modelled. -/
def ff_mutate_add_node (cfg : Config) (c : FFChromosome) (choiceIdx insertIdx : Nat) :
    Option FFChromosome :=
  match mutate_add_node_core cfg c.base choiceIdx with
  | none => none
  | some (b, ng, split_conn) =>
    let miniO : Option Nat :=
      match b.node_genes.get? (split_conn.innodeid - 1) with
      | none => none
      | some nd =>
        if nd.type = .HIDDEN then (idxOf? c.node_order split_conn.innodeid).map (· + 1)
        else some 0
    let maxiO : Option Nat :=
      match b.node_genes.get? (split_conn.outnodeid - 1) with
      | none => none
      | some nd =>
        if nd.type = .HIDDEN then idxOf? c.node_order split_conn.outnodeid
        else some c.node_order.length
    match miniO, maxiO with
    | some mini, some maxi =>
      if mini ≤ maxi then
        some
          { base := b
            node_order :=
              insertAt c.node_order (mini + insertIdx % (maxi - mini + 1)) ng.id }
      else none
    | _, _ => none

/-- The random draws consumed by one `FFChromosome.mutate` call. -/
structure FFMutRand where
  r1 : ℚ
  r2 : ℚ
  r3 : ℚ
  choiceIdx : Nat
  insertIdx : Nat
  nIdx : Nat
  gaussW : ℚ
  connW : Nat → ℚ
  nodeB : Nat → ℚ
  nodeR : Nat → ℚ

/-- `mutate` as inherited by `FFChromosome`: the base branch cascade
(lines 35-56) dispatching to the feedforward overrides of add-node and
add-connection; delete-connection and the perturbation branch act on the
underlying chromosome and leave `__node_order` unchanged. -/
def ff_mutate (cfg : Config) (c : FFChromosome) (r : FFMutRand) : Option FFChromosome :=
  match branchOf cfg r.r1 r.r2 r.r3 with
  | .addNode => ff_mutate_add_node cfg c r.choiceIdx r.insertIdx
  | .addConn => ff_mutate_add_connection c r.nIdx r.gaussW
  | .delConn => some { c with base := mutate_delete_connection c.base r.choiceIdx }
  | .perturb => some { c with base := mutate_perturb c.base r.connW r.nodeB r.nodeR }

/-- `FFChromosome.create_unconnected` (the inherited factory with
`cls = FFChromosome`): `__node_order` starts empty. -/
def ff_create_unconnected (cfg : Config) : FFChromosome :=
  { base := create_unconnected cfg, node_order := [] }

/-- `FFChromosome.create_fully_connected`. -/
def ff_create_fully_connected (cfg : Config) (w : Nat → ℚ) : FFChromosome :=
  { base := create_fully_connected cfg w, node_order := [] }

/-- `FFChromosome.create_minimally_connected`. -/
def ff_create_minimally_connected (cfg : Config) (cOr : Nat → Nat) (wOr : Nat → ℚ) :
    Option FFChromosome :=
  match create_minimally_connected cfg cOr wOr with
  | none => none
  | some c => some { base := c, node_order := [] }

/-! ### Reachable states

One process-wide configuration is shared by all chromosomes (in the
source, `Config` holds class-level attributes).  A chromosome is
reachable when it is produced by a factory, or from reachable
chromosomes by the mutation operators dispatched by `mutate`, by
crossover, by the external caller's fitness/species writes, and — when
the flag admits it — by `_mutate_delete_node` (present in the class but
commented out of `mutate`, line 43).  An operation that raises (an
`Option` result of `none`) does not extend reachability. -/
inductive Reach (cfg : Config) : Bool → Chromosome → Prop where
  | unconnected (d : Bool) : Reach cfg d (create_unconnected cfg)
  | minimal (d : Bool) (cOr : Nat → Nat) (wOr : Nat → ℚ) (c : Chromosome)
      (h : create_minimally_connected cfg cOr wOr = some c) : Reach cfg d c
  | fully (d : Bool) (w : Nat → ℚ) : Reach cfg d (create_fully_connected cfg w)
  | mutStep (d : Bool) (c c' : Chromosome) (r : MutRand) (hc : Reach cfg d c)
      (h : mutate cfg c r = some c') : Reach cfg d c'
  | delNode (c : Chromosome) (rIdx : Nat) (hc : Reach cfg true c) :
      Reach cfg true (mutate_delete_node c rIdx)
  | cross (d : Bool) (c₁ c₂ c' : Chromosome) (nid : Nat) (r : CrossRand)
      (h₁ : Reach cfg d c₁) (h₂ : Reach cfg d c₂)
      (h : crossover cfg c₁ c₂ nid r = some c') : Reach cfg d c'
  | setFitness (d : Bool) (c : Chromosome) (f : Option ℚ) (hc : Reach cfg d c) :
      Reach cfg d { c with fitness := f }
  | setSpecies (d : Bool) (c : Chromosome) (sid : Option Int) (hc : Reach cfg d c) :
      Reach cfg d { c with species_id := sid }

/-- Reachable feedforward chromosomes: a factory-constructed
`FFChromosome` followed by any sequence of completed `mutate()` calls. -/
inductive FFReach (cfg : Config) : FFChromosome → Prop where
  | unconnected : FFReach cfg (ff_create_unconnected cfg)
  | minimal (cOr : Nat → Nat) (wOr : Nat → ℚ) (c : FFChromosome)
      (h : ff_create_minimally_connected cfg cOr wOr = some c) : FFReach cfg c
  | fully (w : Nat → ℚ) : FFReach cfg (ff_create_fully_connected cfg w)
  | mutStep (c c' : FFChromosome) (r : FFMutRand) (hc : FFReach cfg c)
      (h : ff_mutate cfg c r = some c') : FFReach cfg c'

/-! ### Invariant predicates and spec-side definitions -/

/-- The node role the layout invariant assigns to list position `k`:
inputs first, then outputs, then hidden nodes. -/
def zoneType (cfg : Config) (k : Nat) : NodeType :=
  if k < cfg.input_nodes then .INPUT
  else if k < cfg.input_nodes + cfg.output_nodes then .OUTPUT
  else .HIDDEN

/-- The `(id, type)` view of a node gene (the fields no operation other
than delete-node may change). -/
def idType (ng : NodeGene) : Nat × NodeType :=
  (ng.id, ng.type)

/-- The `(sourceNodeId, targetNodeId)` pairs of the stored connection
genes themselves (claim C5 is about the genes, not the dictionary keys). -/
def connKeyPairs (c : Chromosome) : List (Nat × Nat) :=
  c.conn_genes.map fun kv => kv.2.key

/-- Connection-dictionary invariant on a raw entry list: distinct keys,
each entry stored under its gene's own `(source, target)` key. -/
def connListOK (l : ConnList) : Prop :=
  (l.map Prod.fst).Nodup ∧ ∀ kv ∈ l, kv.1 = kv.2.key

/-- Connection-dictionary invariant: the keys are distinct and each entry
is stored under its gene's own `(source, target)` key. -/
structure ConnOK (c : Chromosome) : Prop where
  nodup : (c.conn_genes.map Prod.fst).Nodup
  keyEq : ∀ kv ∈ c.conn_genes, kv.1 = kv.2.key

/-- Node-layout invariant (claim C7): dense 1-based ids in list order,
inputs then outputs then hidden nodes. -/
structure DenseInv (cfg : Config) (c : Chromosome) : Prop where
  num_in : c.num_inputs = cfg.input_nodes
  len_ge : cfg.input_nodes + cfg.output_nodes ≤ c.node_genes.length
  ids : ∀ k (h : k < c.node_genes.length), (c.node_genes.get ⟨k, h⟩).id = k + 1
  types : ∀ k (h : k < c.node_genes.length), (c.node_genes.get ⟨k, h⟩).type = zoneType cfg k

/-- Executable check of the claim-C7 property: node ids form the
contiguous range `1..len(node_genes)` with the input nodes on ids
`1..numInputs` and the output nodes on the next `numOutputs` ids. -/
def denseFrom (cfg : Config) : Nat → List NodeGene → Bool
  | _, [] => true
  | k, ng :: rest =>
    ng.id == k + 1 && ng.type == zoneType cfg k && denseFrom cfg (k + 1) rest

/-- Boolean form of claim C7's property for a whole chromosome. -/
def nodeIdsDenseB (cfg : Config) (c : Chromosome) : Bool :=
  decide (cfg.input_nodes + cfg.output_nodes ≤ c.node_genes.length) &&
    denseFrom cfg 0 c.node_genes

/-- Node lookup by id (used to phrase the feedforward predicate the way
the claim does, in terms of the nodes' roles). -/
def findNode (c : Chromosome) (nid : Nat) : Option NodeGene :=
  c.node_genes.find? fun ng => ng.id == nid

/-- Claim C1's feedforward predicate on a stored connection gene: its
source is an input node, or its target is an output node, or the source
sits strictly before the target in the hidden-node order. -/
def ffPredB (F : FFChromosome) (g : ConnGene) : Bool :=
  match findNode F.base g.innodeid, findNode F.base g.outnodeid with
  | some a, some b =>
    a.type == NodeType.INPUT || b.type == NodeType.OUTPUT ||
      (match idxOf? F.node_order g.innodeid, idxOf? F.node_order g.outnodeid with
        | some i, some j => decide (i < j)
        | _, _ => false)
  | _, _ => false

/-- Invariant of reachable feedforward chromosomes: the dense layered
node layout, the well-keyed connection dictionary, `__node_order` a
permutation of the hidden node ids, and every connection gene leaving a
non-output node, entering a non-input node and respecting the
feedforward predicate. -/
structure FFInv (cfg : Config) (F : FFChromosome) : Prop where
  dense : DenseInv cfg F.base
  num_out : F.base.num_outputs = cfg.output_nodes
  connok : ConnOK F.base
  order_len :
    F.node_order.length + (cfg.input_nodes + cfg.output_nodes) = F.base.node_genes.length
  order_nodup : F.node_order.Nodup
  order_mem : ∀ x ∈ F.node_order,
    cfg.input_nodes + cfg.output_nodes + 1 ≤ x ∧ x ≤ F.base.node_genes.length
  order_complete : ∀ x, cfg.input_nodes + cfg.output_nodes + 1 ≤ x →
    x ≤ F.base.node_genes.length → x ∈ F.node_order
  conn_src : ∀ kv ∈ F.base.conn_genes, 1 ≤ kv.2.innodeid ∧
    kv.2.innodeid ≤ F.base.node_genes.length ∧
    (kv.2.innodeid ≤ cfg.input_nodes ∨
      cfg.input_nodes + cfg.output_nodes + 1 ≤ kv.2.innodeid)
  conn_tgt : ∀ kv ∈ F.base.conn_genes, cfg.input_nodes + 1 ≤ kv.2.outnodeid ∧
    kv.2.outnodeid ≤ F.base.node_genes.length
  conn_ff : ∀ kv ∈ F.base.conn_genes, kv.2.innodeid ≤ cfg.input_nodes ∨
    (cfg.input_nodes + 1 ≤ kv.2.outnodeid ∧
      kv.2.outnodeid ≤ cfg.input_nodes + cfg.output_nodes) ∨
    (∃ i j, idxOf? F.node_order kv.2.innodeid = some i ∧
      idxOf? F.node_order kv.2.outnodeid = some j ∧ i < j)

/-- The branch selection claim C2 describes: one shared uniform draw
compared against the thresholds in order.  This definition follows the
spec's words and is compared against `branchOf`, which is translated
from the source. -/
def sharedBranchOf (cfg : Config) (r : ℚ) : MBranch :=
  if r < cfg.prob_addnode then .addNode
  else if r < cfg.prob_addconn then .addConn
  else if r < cfg.prob_deleteconn then .delConn
  else .perturb

/-- Number of `chromo1` connection genes whose key also occurs in
`chromo2` (the spec's `matching`). -/
def matchingCount (c1conns c2conns : ConnList) : Nat :=
  (c1conns.filter fun kv => dictMem c2conns kv.1).length

/-- Sum of `|weight₁ - weight₂|` over the matching pairs (the spec's
`weightDiff`). -/
def weightDiffSum (c1conns c2conns : ConnList) : ℚ :=
  (c1conns.map fun kv =>
    match dictFind c2conns kv.1 with
    | some cg2 => pyFabs (kv.2.weight - cg2.weight)
    | none => 0).sum

/-- Number of `chromo1` genes absent from `chromo2` and above
`chromo2`'s maximal gene (the spec's `excess`). -/
def excessCount (c1conns c2conns : ConnList) (mw : ℚ) : Nat :=
  (c1conns.filter fun kv => !dictMem c2conns kv.1 && decide (mw < kv.2.weight)).length

/-- Number of `chromo1` genes absent from `chromo2` and not above its
maximum (the in-range half of the spec's `disjoint`). -/
def disjointCount1 (c1conns c2conns : ConnList) (mw : ℚ) : Nat :=
  (c1conns.filter fun kv => !dictMem c2conns kv.1 && !decide (mw < kv.2.weight)).length

/-- `maxConnWeight` with a default for the (never-consulted) empty case. -/
def maxWeightD (l : ConnList) : ℚ :=
  (maxConnWeight l).getD 0

/-- The spec's distance formula, assembled from the independently defined
counters: `excessCoeff*excess + disjointCoeff*disjoint +
weightCoeff*(weightDiff/matching)`, the weight term zero when
`matching == 0`, and `disjoint` the in-range absentees of `chromo1` plus
`chromo2`'s genes never visited. -/
def distSpec (cfg : Config) (c1 c2 : ConnList) : ℚ :=
  cfg.excess_coefficient * (excessCount c1 c2 (maxWeightD c2) : ℚ) +
    cfg.disjoint_coefficient *
      (((disjointCount1 c1 c2 (maxWeightD c2) : Int) +
          ((c2.length : Int) - (matchingCount c1 c2 : Int)) : Int) : ℚ) +
    if 0 < matchingCount c1 c2 then
      cfg.weight_coefficient * (weightDiffSum c1 c2 / (matchingCount c1 c2 : ℚ))
    else 0

/-- Number of candidate pairs of a scan block whose key is absent from
the dictionary (used for the add-connection counting argument). -/
def countFreeP (conns : ConnList) (P : List (NodeGene × NodeGene)) : Nat :=
  (P.filter fun ab => !dictMem conns (ab.1.id, ab.2.id)).length

/-! ### Concrete instances used by counterexamples and witnesses -/

/-- A small configuration with `prob_addnode = 2/5`, `prob_addconn =
3/10`, `prob_deleteconn = 1/10`. -/
def cfgC2 : Config :=
  { input_nodes := 1, output_nodes := 1, prob_addnode := mkRat 2 5,
    prob_addconn := mkRat 3 10,
    prob_deleteconn := mkRat 1 10, weight_stdev := 1, excess_coefficient := 1,
    disjoint_coefficient := 1, weight_coefficient := 1, nn_activation := "exp" }

/-- A 1-input/1-output configuration whose `mutate` always takes the
add-node branch. -/
def cfgAdd : Config :=
  { input_nodes := 1, output_nodes := 1, prob_addnode := 1, prob_addconn := 0,
    prob_deleteconn := 0, weight_stdev := 1, excess_coefficient := 1,
    disjoint_coefficient := 1, weight_coefficient := 1, nn_activation := "exp" }

/-- `MutRand` draws that land in the add-node branch of `cfgAdd` and
split the `k`-th connection gene. -/
def rAddNode (k : Nat) : MutRand :=
  { r1 := 0, r2 := 1, r3 := 1, choiceIdx := k, nIdx := 0, gaussW := 0,
    connW := fun _ => 0, nodeB := fun _ => 0, nodeR := fun _ => 0 }

/-- Constant weight stream. -/
def wOne : Nat → ℚ :=
  fun _ => 1

/-- A concrete evaluated 1-input/1-output chromosome with one connection. -/
def chromoA : Chromosome :=
  { ID := 1, parent1_id := 0, parent2_id := 0, num_inputs := 1, num_outputs := 1,
    node_genes :=
      [{ id := 1, type := .INPUT, bias := 0, response := 0, activation := "" },
        { id := 2, type := .OUTPUT, bias := 0, response := 0, activation := "exp" }],
    conn_genes := [((1, 2), ⟨1, 2, 1, true⟩)],
    fitness := some 1, species_id := some 1 }

/-- Like `chromoA` but with no connection genes: same species, equal
fitness, distinguishable gene set. -/
def chromoB : Chromosome :=
  { chromoA with ID := 2, conn_genes := [] }

/-- Deterministic coin streams for a crossover call. -/
def rCross0 : CrossRand :=
  { wCoin := fun _ => true, eCoin := fun _ => true, bCoin := fun _ => true,
    rCoin := fun _ => true }

/-- A two-chromosome store (the parents of the claim-C9 witness). -/
def storeC9 : List Chromosome :=
  [chromoA, chromoB]

/-- The child `crossover` produces from `chromoA` and `chromoB` (equal
fitness, so `chromoB` — the `other` argument — is the fitter parent). -/
def childC9 : Chromosome :=
  buildChild cfgC2 chromoA chromoB chromoB chromoA 3 rCross0

/-- 2-input/1-output configuration carrying the three distance
coefficients. -/
def cfgC3 (ec dc wc : ℚ) : Config :=
  { input_nodes := 2, output_nodes := 1, prob_addnode := 0, prob_addconn := 0,
    prob_deleteconn := 0, weight_stdev := 1, excess_coefficient := ec,
    disjoint_coefficient := dc, weight_coefficient := wc, nn_activation := "exp" }

/-- Weight stream `[0.5, 0.5]`. -/
def wHalf : Nat → ℚ :=
  fun _ => mkRat 1 2

/-- Weight stream `[0.5, 0.7]`. -/
def wHalfSeven : Nat → ℚ :=
  fun n => if n = 0 then mkRat 1 2 else mkRat 7 10

/-- Fully connected 2-input/1-output chromosome with weights `[0.5, 0.5]`. -/
def chromoFCA : Chromosome :=
  create_fully_connected (cfgC3 0 0 0) wHalf

/-- Fully connected 2-input/1-output chromosome with weights `[0.5, 0.7]`. -/
def chromoFCB : Chromosome :=
  create_fully_connected (cfgC3 0 0 0) wHalfSeven

/-- First add-node mutation applied to the fully connected `cfgAdd`
chromosome. -/
def chromoM1 : Chromosome :=
  (mutate cfgAdd (create_fully_connected cfgAdd wOne) (rAddNode 0)).getD
    (create_fully_connected cfgAdd wOne)

/-- Second add-node mutation (splitting the second connection gene). -/
def chromoM2 : Chromosome :=
  (mutate cfgAdd chromoM1 (rAddNode 1)).getD chromoM1

/-- Deleting hidden node 3 of `chromoM2` leaves node ids `[1, 2, 4]`: the
claim-C7 gap. -/
def chromoGap : Chromosome :=
  mutate_delete_node chromoM2 0

/-! ## Theorems -/

/-! ### Dictionary lemmas -/

theorem dictFind_isSome_iff {ν : Type} (l : List ((Nat × Nat) × ν)) (k : Nat × Nat) :
    (dictFind l k).isSome = true ↔ k ∈ l.map Prod.fst := by
  induction l with
  | nil => simp [dictFind]
  | cons kv rest ih =>
    by_cases h : kv.1 = k <;> simp [dictFind, h, ih]
    exact fun hh => (h hh.symm).elim

theorem dictMem_iff {ν : Type} (l : List ((Nat × Nat) × ν)) (k : Nat × Nat) :
    dictMem l k = true ↔ k ∈ l.map Prod.fst :=
  dictFind_isSome_iff l k

theorem dictInsert_map_fst_of_mem {ν : Type} (l : List ((Nat × Nat) × ν)) (k : Nat × Nat)
    (v : ν) (h : k ∈ l.map Prod.fst) :
    (dictInsert l k v).map Prod.fst = l.map Prod.fst := by
  induction l with
  | nil => simp at h
  | cons kv rest ih =>
    by_cases hk : kv.1 = k
    · simp [dictInsert, hk]
    · simp only [List.map_cons, List.mem_cons] at h
      rcases h with h | h
      · exact (hk h.symm).elim
      · simp [dictInsert, hk, ih h]

theorem dictInsert_map_fst_of_not_mem {ν : Type} (l : List ((Nat × Nat) × ν)) (k : Nat × Nat)
    (v : ν) (h : k ∉ l.map Prod.fst) :
    (dictInsert l k v).map Prod.fst = l.map Prod.fst ++ [k] := by
  induction l with
  | nil => simp [dictInsert]
  | cons kv rest ih =>
    simp only [List.map_cons, List.mem_cons] at h
    push_neg at h
    have hk : kv.1 ≠ k := fun hh => h.1 hh.symm
    simp [dictInsert, hk, ih h.2]

theorem dictInsert_nodup_keys {ν : Type} (l : List ((Nat × Nat) × ν)) (k : Nat × Nat) (v : ν)
    (h : (l.map Prod.fst).Nodup) : ((dictInsert l k v).map Prod.fst).Nodup := by
  by_cases hm : k ∈ l.map Prod.fst
  · rwa [dictInsert_map_fst_of_mem l k v hm]
  · rw [dictInsert_map_fst_of_not_mem l k v hm]
    refine List.Nodup.append h (List.nodup_singleton k) ?_
    intro a ha hb
    simp only [List.mem_singleton] at hb
    subst hb
    exact hm ha

theorem mem_dictInsert {ν : Type} {l : List ((Nat × Nat) × ν)} {k : Nat × Nat} {v : ν}
    {x : (Nat × Nat) × ν} (h : x ∈ dictInsert l k v) : x = (k, v) ∨ x ∈ l := by
  induction l with
  | nil => simpa [dictInsert] using h
  | cons kv rest ih =>
    by_cases hk : kv.1 = k
    · simp only [dictInsert, hk, if_pos rfl] at h
      rcases List.mem_cons.mp h with h | h
      · exact Or.inl h
      · exact Or.inr (List.mem_cons_of_mem _ h)
    · simp only [dictInsert, if_neg hk] at h
      rcases List.mem_cons.mp h with h | h
      · exact Or.inr (h ▸ List.mem_cons_self _ _)
      · rcases ih h with h | h
        · exact Or.inl h
        · exact Or.inr (List.mem_cons_of_mem _ h)

theorem dictFind_eq_some_of_nodup {ν : Type} {l : List ((Nat × Nat) × ν)} {k : Nat × Nat}
    {v : ν} (hx : (k, v) ∈ l) (h : (l.map Prod.fst).Nodup) : dictFind l k = some v := by
  induction l with
  | nil => simp at hx
  | cons kv rest ih =>
    simp only [List.map_cons, List.nodup_cons] at h
    rcases List.mem_cons.mp hx with hh | hh
    · subst hh; simp [dictFind]
    · have hk : kv.1 ≠ k := by
        intro he
        exact h.1 (he ▸ (List.mem_map.mpr ⟨(k, v), hh, rfl⟩))
      simp [dictFind, hk, ih hh h.2]

theorem dictFind_mem {ν : Type} {l : List ((Nat × Nat) × ν)} {k : Nat × Nat} {v : ν}
    (h : dictFind l k = some v) : (k, v) ∈ l := by
  induction l with
  | nil => simp [dictFind] at h
  | cons kv rest ih =>
    by_cases hk : kv.1 = k
    · simp only [dictFind, if_pos hk] at h
      obtain ⟨k1, v1⟩ := kv
      obtain rfl : k1 = k := hk
      obtain rfl : v1 = v := Option.some.inj h
      exact List.mem_cons_self _ _
    · simp only [dictFind, if_neg hk] at h
      exact List.mem_cons_of_mem _ (ih h)

/-! ### Claim C2: mutation branch selection -/

/-- Claim C2, counterexample.  `Chromosome.mutate` binds `r =
random.random` (the function) and re-calls it at every threshold, so with
the draws `0.5, 0.1, 1` and thresholds `0.4, 0.3, 0.1` the code enters
the add-connection branch, while a single shared draw of `0.5` would fall
through to the perturbation branch: the branch selection is not a
function of one shared draw. -/
theorem mutate_branch_counterexample :
    branchOf cfgC2 (mkRat 1 2) (mkRat 1 10) 1 ≠ sharedBranchOf cfgC2 (mkRat 1 2) := by
  decide

/-- Claim C2 (amended): `mutate` selects exactly one mutation branch by
comparing probability thresholds in the fixed order add-node,
add-connection, delete-connection, else weight/bias perturbation, but
each ordered check consumes a fresh uniform draw (`r = random.random`
rebinds the function, and `r()` is called anew per check) rather than
reusing one shared draw. -/
theorem mutate_branch_fresh_draws (cfg : Config) (r1 r2 r3 : ℚ) :
    (branchOf cfg r1 r2 r3 = .addNode ↔ r1 < cfg.prob_addnode) ∧
    (branchOf cfg r1 r2 r3 = .addConn ↔
      ¬r1 < cfg.prob_addnode ∧ r2 < cfg.prob_addconn) ∧
    (branchOf cfg r1 r2 r3 = .delConn ↔
      ¬r1 < cfg.prob_addnode ∧ ¬r2 < cfg.prob_addconn ∧ r3 < cfg.prob_deleteconn) ∧
    (branchOf cfg r1 r2 r3 = .perturb ↔
      ¬r1 < cfg.prob_addnode ∧ ¬r2 < cfg.prob_addconn ∧ ¬r3 < cfg.prob_deleteconn) := by
  unfold branchOf
  by_cases h1 : r1 < cfg.prob_addnode <;> by_cases h2 : r2 < cfg.prob_addconn <;>
    by_cases h3 : r3 < cfg.prob_deleteconn <;> simp [h1, h2, h3]

/-! ### Claim C6: add-node on a connectionless chromosome -/

/-- Claim C6 (code bug): on a chromosome with zero connection genes the
add-node mutation is not a benign silent no-op — line 114 calls
`random.choice(self.conn_genes.values())` on an empty list, which raises
`IndexError` (modelled as `none`) before the chromosome is touched.  The
sibling operators guard their preconditions (lines 128, 145, 161) and the
spec classifies a missing connection to split as a silent no-op, so the
missing guard contradicts the documented intent. -/
theorem add_node_raises_on_no_connections :
    (create_unconnected cfgAdd).conn_genes = [] ∧
    mutate_add_node_core cfgAdd (create_unconnected cfgAdd) 0 = none ∧
    mutate cfgAdd (create_unconnected cfgAdd) (rAddNode 0) = none := by
  decide

/-! ### Claim C10: distance on connectionless chromosomes -/

/-- Claim C10: `distance` reaches `max(chromo2.conn_genes.values())`
where `chromo2` is the side with fewer (or equally many) connection
genes, so it raises `ValueError` exactly when one side has no connection
genes: `distance` returns a value iff both chromosomes have at least one
connection gene. -/
theorem distance_none_iff_empty (cfg : Config) (s o : Chromosome) :
    distance cfg s o = none ↔ s.conn_genes = [] ∨ o.conn_genes = [] := by
  have hmax : ∀ l : ConnList, maxConnWeight l = none ↔ l = [] := by
    intro l
    cases l <;> simp [maxConnWeight]
  by_cases h : o.conn_genes.length < s.conn_genes.length
  · unfold distance
    simp only [if_pos h]
    cases hmw : maxConnWeight o.conn_genes with
    | none =>
      have ho : o.conn_genes = [] := (hmax _).mp hmw
      exact iff_of_true rfl (Or.inr ho)
    | some mw =>
      refine iff_of_false (by simp) ?_
      rintro (he | he)
      · rw [he] at h
        exact Nat.not_lt_zero _ h
      · rw [(hmax _).mpr he] at hmw
        exact Option.noConfusion hmw
  · unfold distance
    simp only [if_neg h]
    cases hmw : maxConnWeight s.conn_genes with
    | none =>
      have hs : s.conn_genes = [] := (hmax _).mp hmw
      exact iff_of_true rfl (Or.inl hs)
    | some mw =>
      refine iff_of_false (by simp) ?_
      rintro (he | he)
      · rw [(hmax _).mpr he] at hmw
        exact Option.noConfusion hmw
      · rw [he] at h
        push_neg at h
        have hs : s.conn_genes = [] := List.length_eq_zero.mp (Nat.le_zero.mp h)
        rw [(hmax _).mpr hs] at hmw
        exact Option.noConfusion hmw

/-! ### Claim C4: crossover tie-breaking -/

/-- Claim C4, counterexample: `chromoA` (as `self`, one connection gene)
and `chromoB` (as `other`, no connection genes) have equal fitness and
equal species, yet the child's connection genes are not `self`'s — line
66 tests `self.fitness > other.fitness`, so on ties `other` becomes the
fitter parent and the child's gene set is `other`'s (empty), refuting
"ties are broken toward self". -/
theorem crossover_tie_counterexample :
    chromoA.fitness = chromoB.fitness ∧
    (crossover cfgC2 chromoA chromoB 3 rCross0).map Chromosome.conn_genes ≠
      some chromoA.conn_genes := by
  decide

/-- Claim C4 (amended): when the two parents have equal fitness the
chromosome passed as `other` is chosen as the fitter parent (`self.fitness
> other.fitness` is false on ties), so the child's genes and `species_id`
are taken from `other`. -/
theorem crossover_tie_prefers_other (cfg : Config) (s o : Chromosome) (nid : Nat)
    (r : CrossRand) (hsp : s.species_id = o.species_id) (hf : s.fitness = o.fitness) :
    crossover cfg s o nid r = some (buildChild cfg s o o s nid r) ∧
    (buildChild cfg s o o s nid r).species_id = o.species_id ∧
    (buildChild cfg s o o s nid r).conn_genes =
      inherit_conns s.conn_genes r o.conn_genes 0 [] ∧
    (buildChild cfg s o o s nid r).node_genes =
      inherit_nodes s.node_genes r o.node_genes 0 := by
  have hgt : pyGtF s.fitness o.fitness = false := by
    rw [hf]
    cases o.fitness with
    | none => rfl
    | some q => simp [pyGtF]
  refine ⟨?_, rfl, rfl, rfl⟩
  simp [crossover, hsp, hgt]

/-- Witness for the amended claim C4 at the concrete equal-fitness
parents. -/
theorem crossover_tie_prefers_other_witness :
    crossover cfgC2 chromoA chromoB 3 rCross0 =
      some (buildChild cfgC2 chromoA chromoB chromoB chromoA 3 rCross0) :=
  (crossover_tie_prefers_other cfgC2 chromoA chromoB 3 rCross0 (by decide) (by decide)).1

/-! ### Claim C9: crossover's frame property -/

/-- Claim C9: in the store model, `crossover` reads the two parents,
allocates a fresh child at the end of the store, and leaves every
existing chromosome — node genes, connection genes, ids, fitness,
species — exactly as it was. -/
theorem crossover_frame (st st' : List Chromosome) (i j : Nat) (r : CrossRand)
    (cfg : Config) (h : crossoverStore st i j r cfg = some st') :
    st'.take st.length = st ∧ st'.length = st.length + 1 := by
  unfold crossoverStore at h
  cases hi : st.get? i with
  | none => rw [hi] at h; exact Option.noConfusion h
  | some s =>
    cases hj : st.get? j with
    | none => rw [hi, hj] at h; exact Option.noConfusion h
    | some o =>
      rw [hi, hj] at h
      dsimp only at h
      cases hc : crossover cfg s o (st.length + 1) r with
      | none =>
        rw [hc] at h
        exact Option.noConfusion h
      | some ch =>
        rw [hc] at h
        simp only [Option.map_some'] at h
        obtain rfl : st ++ [ch] = st' := Option.some.inj h
        constructor
        · exact List.take_left st [ch]
        · simp

/-- Witness for claim C9 at a concrete two-chromosome store. -/
theorem crossover_frame_witness :
    (storeC9 ++ [childC9]).take storeC9.length = storeC9 ∧
    (storeC9 ++ [childC9]).length = storeC9.length + 1 :=
  crossover_frame storeC9 (storeC9 ++ [childC9]) 0 1 rCross0 cfgC2 (by decide)

/-! ### Claim C3: the distance formula -/

theorem distLoop_eq (c2conns : ConnList) (mw : ℚ) (l : ConnList) (acc : ℚ × Nat × Nat × Nat) :
    distLoop c2conns mw l acc =
      (acc.1 + weightDiffSum l c2conns, acc.2.1 + matchingCount l c2conns,
        acc.2.2.1 + disjointCount1 l c2conns mw, acc.2.2.2 + excessCount l c2conns mw) := by
  induction l generalizing acc with
  | nil =>
    simp [distLoop, weightDiffSum, matchingCount, disjointCount1, excessCount]
  | cons kv rest ih =>
    obtain ⟨wd, m, dis, exc⟩ := acc
    cases hf : dictFind c2conns kv.1 with
    | none =>
      have hm : dictMem c2conns kv.1 = false := by simp [dictMem, hf]
      by_cases hlt : mw < kv.2.weight
      · simp [distLoop, hf, hlt, ih, weightDiffSum, matchingCount,
          disjointCount1, excessCount, List.filter_cons, hm, Prod.ext_iff]
        omega
      · simp [distLoop, hf, hlt, ih, weightDiffSum, matchingCount,
          disjointCount1, excessCount, List.filter_cons, hm, Prod.ext_iff]
        omega
    | some cg2 =>
      have hm : dictMem c2conns kv.1 = true := by simp [dictMem, hf]
      simp [distLoop, hf, ih, weightDiffSum, matchingCount, disjointCount1,
        excessCount, List.filter_cons, hm, Prod.ext_iff]
      exact ⟨by ring, by omega⟩

/-- The `distance` computation refines the spec's formula whenever the
smaller side is non-empty. -/
theorem distance_eq_formula (cfg : Config) (s o : Chromosome)
    (h : (if o.conn_genes.length < s.conn_genes.length then o else s).conn_genes ≠ []) :
    distance cfg s o =
      some (distSpec cfg
        (if o.conn_genes.length < s.conn_genes.length then s else o).conn_genes
        (if o.conn_genes.length < s.conn_genes.length then o else s).conn_genes) := by
  have hmax : ∀ l : ConnList, l ≠ [] → maxConnWeight l = some (maxWeightD l) := by
    intro l hl
    cases l with
    | nil => exact (hl rfl).elim
    | cons kv rest => simp [maxConnWeight, maxWeightD]
  by_cases hcmp : o.conn_genes.length < s.conn_genes.length
  · rw [if_pos hcmp] at h
    unfold distance
    simp only [if_pos hcmp, hmax _ h, distLoop_eq, distSpec, zero_add]
  · rw [if_neg hcmp] at h
    unfold distance
    simp only [if_neg hcmp, hmax _ h, distLoop_eq, distSpec, zero_add]

/-- Claim C3: `distance` returns `excessCoeff*excess + disjointCoeff*disjoint
+ weightCoeff*(weightDiff/matching)` with the weight term omitted when
`matching == 0`; in particular for two fully-connected 2-input/1-output
chromosomes with identical topology and weights `[0.5, 0.5]` vs
`[0.5, 0.7]` it returns `weightCoefficient * 0.2 / 2` (excess = disjoint
= 0, matching = 2, weightDiff = 0.2). -/
theorem distance_formula_and_example :
    (∀ (cfg : Config) (s o : Chromosome),
      (if o.conn_genes.length < s.conn_genes.length then o else s).conn_genes ≠ [] →
      distance cfg s o =
        some (distSpec cfg
          (if o.conn_genes.length < s.conn_genes.length then s else o).conn_genes
          (if o.conn_genes.length < s.conn_genes.length then o else s).conn_genes)) ∧
    (∀ ec dc wc : ℚ,
      distance (cfgC3 ec dc wc) chromoFCA chromoFCB = some (wc * (2/10) / 2)) := by
  refine ⟨distance_eq_formula, ?_⟩
  intro ec dc wc
  have hne :
      (if chromoFCB.conn_genes.length < chromoFCA.conn_genes.length then chromoFCB
        else chromoFCA).conn_genes ≠ [] := by
    decide
  rw [distance_eq_formula (cfgC3 ec dc wc) chromoFCA chromoFCB hne]
  have hcmp : (chromoFCB.conn_genes.length < chromoFCA.conn_genes.length) = False := by
    decide
  simp only [hcmp, if_false]
  have hA : chromoFCA.conn_genes =
      [((1, 3), ⟨1, 3, mkRat 1 2, true⟩), ((2, 3), ⟨2, 3, mkRat 1 2, true⟩)] := by decide
  have hB : chromoFCB.conn_genes =
      [((1, 3), ⟨1, 3, mkRat 1 2, true⟩), ((2, 3), ⟨2, 3, mkRat 7 10, true⟩)] := by decide
  rw [hA, hB]
  have hmw : maxWeightD
      [((1, 3), (⟨1, 3, mkRat 1 2, true⟩ : ConnGene)),
        ((2, 3), ⟨2, 3, mkRat 1 2, true⟩)] = mkRat 1 2 := by
    simp [maxWeightD, maxConnWeight]
  have e4 : weightDiffSum
      [((1, 3), (⟨1, 3, mkRat 1 2, true⟩ : ConnGene)), ((2, 3), ⟨2, 3, mkRat 7 10, true⟩)]
      [((1, 3), (⟨1, 3, mkRat 1 2, true⟩ : ConnGene)), ((2, 3), ⟨2, 3, mkRat 1 2, true⟩)] =
      mkRat 1 5 := by
    simp only [weightDiffSum, List.map_cons, List.map_nil, List.sum_cons, List.sum_nil]
    norm_num [dictFind, pyFabs, Rat.mkRat_eq_div]
  simp only [distSpec, hmw, e4]
  norm_num [excessCount, disjointCount1, matchingCount, dictFind, dictMem,
    List.filter_cons, cfgC3, Rat.mkRat_eq_div]
  ring

/-- Witness for claim C3's formula conjunct at the concrete pair. -/
theorem distance_formula_and_example_witness :
    distance (cfgC3 1 1 1) chromoFCA chromoFCB =
      some (distSpec (cfgC3 1 1 1)
        (if chromoFCB.conn_genes.length < chromoFCA.conn_genes.length then chromoFCA
          else chromoFCB).conn_genes
        (if chromoFCB.conn_genes.length < chromoFCA.conn_genes.length then chromoFCB
          else chromoFCA).conn_genes) :=
  distance_formula_and_example.1 (cfgC3 1 1 1) chromoFCA chromoFCB (by decide)

/-! ### Claim C8: minimal connectivity -/

theorem dictInsert_eq_append {ν : Type} (l : List ((Nat × Nat) × ν)) (k : Nat × Nat) (v : ν)
    (h : k ∉ l.map Prod.fst) : dictInsert l k v = l ++ [(k, v)] := by
  induction l with
  | nil => rfl
  | cons kv rest ih =>
    simp only [List.map_cons, List.mem_cons] at h
    push_neg at h
    have hk : kv.1 ≠ k := fun hh => h.1 hh.symm
    simp [dictInsert, hk, ih h.2]

theorem min_go_skip (cfg : Config) (cOr : Nat → Nat) (wOr : Nat → ℚ)
    (allNodes : List NodeGene) (pre rest : List NodeGene)
    (hpre : ∀ x ∈ pre, x.type ≠ .OUTPUT) (j : Nat) (conns : ConnList) :
    min_go cfg cOr wOr allNodes (pre ++ rest) j conns =
      min_go cfg cOr wOr allNodes rest j conns := by
  induction pre with
  | nil => rfl
  | cons x xs ih =>
    have hx : x.type ≠ .OUTPUT := hpre x (List.mem_cons_self _ _)
    simp only [List.cons_append, min_go, if_neg hx]
    exact ih fun y hy => hpre y (List.mem_cons_of_mem _ hy)

/-- One entry of the minimally connected connection list. -/
theorem min_go_outputs (cfg : Config) (cOr : Nat → Nat) (wOr : Nat → ℚ)
    (allNodes : List NodeGene) (hI : 1 ≤ cfg.input_nodes)
    (htake : allNodes.take cfg.input_nodes = mkInputNodes cfg) :
    ∀ (n s j : Nat) (conns : ConnList),
      (∀ kv ∈ conns, kv.1.2 < cfg.input_nodes + 1 + s) →
      min_go cfg cOr wOr allNodes
        ((List.range n).map fun t =>
          { id := cfg.input_nodes + 1 + (s + t), type := .OUTPUT, bias := 0, response := 0,
            activation := cfg.nn_activation }) j conns =
      some (conns ++ (List.range n).map fun t =>
        ((cOr (j + t) % cfg.input_nodes + 1, cfg.input_nodes + 1 + (s + t)),
          ⟨cOr (j + t) % cfg.input_nodes + 1, cfg.input_nodes + 1 + (s + t), wOr (j + t),
            true⟩)) := by
  intro n
  induction n with
  | zero => intro s j conns _; simp [min_go]
  | succ n ih =>
    intro s j conns hbound
    have hchoice : pyChoice (allNodes.take cfg.input_nodes) (cOr j) =
        some { id := cOr j % cfg.input_nodes + 1, type := .INPUT, bias := 0, response := 0,
               activation := "" } := by
      rw [htake]
      unfold pyChoice
      have hlen : (mkInputNodes cfg).length = cfg.input_nodes := by
        simp [mkInputNodes]
      rw [hlen]
      have hmod : cOr j % cfg.input_nodes < cfg.input_nodes :=
        Nat.mod_lt _ (Nat.lt_of_lt_of_le Nat.zero_lt_one hI)
      simp [mkInputNodes, List.getElem?_map, List.getElem?_range hmod]
    have hnodes : (List.range (n + 1)).map (fun t =>
        ({ id := cfg.input_nodes + 1 + (s + t), type := .OUTPUT, bias := 0, response := 0,
           activation := cfg.nn_activation } : NodeGene)) =
        ({ id := cfg.input_nodes + 1 + s, type := .OUTPUT, bias := 0, response := 0,
           activation := cfg.nn_activation } : NodeGene) ::
          (List.range n).map (fun t =>
            ({ id := cfg.input_nodes + 1 + (s + 1 + t), type := .OUTPUT, bias := 0,
               response := 0, activation := cfg.nn_activation } : NodeGene)) := by
      rw [List.range_succ_eq_map, List.map_cons, List.map_map]
      refine congrArg₂ (· :: ·) (by simp) ?_
      refine List.map_congr_left fun t _ => ?_
      simp only [Function.comp_apply]
      have h2 : s + (t + 1) = s + 1 + t := by omega
      rw [h2]
    have hres : (List.range (n + 1)).map (fun t =>
        ((cOr (j + t) % cfg.input_nodes + 1, cfg.input_nodes + 1 + (s + t)),
          (⟨cOr (j + t) % cfg.input_nodes + 1, cfg.input_nodes + 1 + (s + t), wOr (j + t),
            true⟩ : ConnGene))) =
        ((cOr j % cfg.input_nodes + 1, cfg.input_nodes + 1 + s),
          (⟨cOr j % cfg.input_nodes + 1, cfg.input_nodes + 1 + s, wOr j,
            true⟩ : ConnGene)) ::
          (List.range n).map (fun t =>
            ((cOr (j + 1 + t) % cfg.input_nodes + 1, cfg.input_nodes + 1 + (s + 1 + t)),
              (⟨cOr (j + 1 + t) % cfg.input_nodes + 1, cfg.input_nodes + 1 + (s + 1 + t),
                wOr (j + 1 + t), true⟩ : ConnGene))) := by
      rw [List.range_succ_eq_map, List.map_cons, List.map_map]
      refine congrArg₂ (· :: ·) (by simp) ?_
      refine List.map_congr_left fun t _ => ?_
      simp only [Function.comp_apply]
      have h1 : j + (t + 1) = j + 1 + t := by omega
      have h2 : s + (t + 1) = s + 1 + t := by omega
      rw [h1, h2]
    rw [hnodes, hres]
    have hfresh : (cOr j % cfg.input_nodes + 1, cfg.input_nodes + 1 + s) ∉
        conns.map Prod.fst := by
      intro hmem
      obtain ⟨kv, hkv, hfst⟩ := List.mem_map.mp hmem
      have := hbound kv hkv
      rw [hfst] at this
      simp at this
    simp only [min_go]
    rw [if_pos trivial, hchoice]
    dsimp only
    rw [dictInsert_eq_append _ _ _ hfresh]
    have hbound' : ∀ kv ∈ conns ++
        [((cOr j % cfg.input_nodes + 1, cfg.input_nodes + 1 + s),
          (⟨cOr j % cfg.input_nodes + 1, cfg.input_nodes + 1 + s, wOr j,
            true⟩ : ConnGene))],
        kv.1.2 < cfg.input_nodes + 1 + (s + 1) := by
      intro kv hkv
      rcases List.mem_append.mp hkv with hkv | hkv
      · have := hbound kv hkv
        omega
      · simp only [List.mem_singleton] at hkv
        subst hkv
        simp
    rw [ih (s + 1) (j + 1) _ hbound']
    rw [List.append_assoc]
    rfl

/-- Claim C8: `create_minimally_connected` first builds the unconnected
layout, then adds exactly one connection gene per output node, from the
input node selected by the uniform draw (`choice` over the input slice),
with the Gaussian-drawn weight; the result has exactly `numOutputs`
connection genes, every source being an input node id. -/
theorem minimally_connected_spec (cfg : Config) (cOr : Nat → Nat) (wOr : Nat → ℚ)
    (hI : 1 ≤ cfg.input_nodes) (_hO : 1 ≤ cfg.output_nodes) :
    create_minimally_connected cfg cOr wOr =
      some { create_unconnected cfg with
        conn_genes := (List.range cfg.output_nodes).map fun j =>
          ((cOr j % cfg.input_nodes + 1, cfg.input_nodes + 1 + j),
            ⟨cOr j % cfg.input_nodes + 1, cfg.input_nodes + 1 + j, wOr j, true⟩) } ∧
    ((List.range cfg.output_nodes).map fun j =>
        ((cOr j % cfg.input_nodes + 1, cfg.input_nodes + 1 + j),
          (⟨cOr j % cfg.input_nodes + 1, cfg.input_nodes + 1 + j, wOr j,
            true⟩ : ConnGene))).length = cfg.output_nodes ∧
    ((List.range cfg.output_nodes).all fun j =>
      decide (cOr j % cfg.input_nodes + 1 ≤ cfg.input_nodes)) = true := by
  have htake : (create_unconnected cfg).node_genes.take cfg.input_nodes =
      mkInputNodes cfg := by
    have hlen : (mkInputNodes cfg).length = cfg.input_nodes := by simp [mkInputNodes]
    simp [create_unconnected, List.take_left, ← hlen, List.take_left]
  have hout : mkOutputNodes cfg = (List.range cfg.output_nodes).map fun t =>
      ({ id := cfg.input_nodes + 1 + (0 + t), type := .OUTPUT, bias := 0, response := 0,
         activation := cfg.nn_activation } : NodeGene) := by
    unfold mkOutputNodes
    refine List.map_congr_left fun t _ => ?_
    congr 1
    omega
  refine ⟨?_, by simp, ?_⟩
  · have hskip : ∀ x ∈ mkInputNodes cfg, x.type ≠ .OUTPUT := by
      intro x hx
      unfold mkInputNodes at hx
      obtain ⟨i, _, rfl⟩ := List.mem_map.mp hx
      simp
    have hmin : min_go cfg cOr wOr (create_unconnected cfg).node_genes
        (create_unconnected cfg).node_genes 0 (create_unconnected cfg).conn_genes =
        some ((List.range cfg.output_nodes).map fun j =>
          ((cOr j % cfg.input_nodes + 1, cfg.input_nodes + 1 + j),
            ⟨cOr j % cfg.input_nodes + 1, cfg.input_nodes + 1 + j, wOr j, true⟩)) := by
      have hsplit : (create_unconnected cfg).node_genes =
          mkInputNodes cfg ++ mkOutputNodes cfg := rfl
      have hconn0 : (create_unconnected cfg).conn_genes = [] := rfl
      conv =>
        lhs
        rw [hconn0]
        rw [show min_go cfg cOr wOr (create_unconnected cfg).node_genes
              (create_unconnected cfg).node_genes 0 [] =
            min_go cfg cOr wOr (create_unconnected cfg).node_genes
              (mkInputNodes cfg ++ mkOutputNodes cfg) 0 [] from rfl]
        rw [min_go_skip cfg cOr wOr _ _ _ hskip]
        rw [hout]
        rw [min_go_outputs cfg cOr wOr _ hI htake cfg.output_nodes 0 0 [] (by simp)]
      simp only [List.nil_append, Option.some.injEq]
      refine List.map_congr_left fun j _ => ?_
      simp only [Nat.zero_add]
    unfold create_minimally_connected
    rw [hmin]
  · rw [List.all_eq_true]
    intro j _
    have hmod : cOr j % cfg.input_nodes < cfg.input_nodes :=
      Nat.mod_lt _ (Nat.lt_of_lt_of_le Nat.zero_lt_one hI)
    simpa using hmod

/-! ### Claim C5: connection-key uniqueness -/

theorem connListOK_nil : connListOK [] :=
  ⟨List.nodup_nil, fun _ h => absurd h (List.not_mem_nil _)⟩

theorem connListOK_dictInsert {l : ConnList} (v : ConnGene) (h : connListOK l) :
    connListOK (dictInsert l v.key v) := by
  refine ⟨dictInsert_nodup_keys _ _ _ h.1, ?_⟩
  intro kv hkv
  rcases mem_dictInsert hkv with rfl | hkv
  · rfl
  · exact h.2 kv hkv

theorem connListOK_sublist {l l' : ConnList} (hs : l'.Sublist l) (h : connListOK l) :
    connListOK l' :=
  ⟨h.1.sublist (hs.map Prod.fst), fun kv hkv => h.2 kv (hs.subset hkv)⟩

theorem connListOK_disable {l : ConnList} (k0 : Nat × Nat) (h : connListOK l) :
    connListOK (l.map fun kv =>
      if kv.1 = k0 then (kv.1, { kv.2 with enabled := false }) else kv) := by
  constructor
  · have hfst : (l.map fun kv =>
        if kv.1 = k0 then (kv.1, { kv.2 with enabled := false }) else kv).map Prod.fst =
        l.map Prod.fst := by
      rw [List.map_map]
      refine List.map_congr_left fun kv _ => ?_
      by_cases hk : kv.1 = k0 <;> simp [hk]
    rw [hfst]
    exact h.1
  · intro kv hkv
    obtain ⟨kv0, hkv0, hf⟩ := List.mem_map.mp hkv
    by_cases hk : kv0.1 = k0
    · rw [if_pos hk] at hf
      rw [← hf]
      exact h.2 kv0 hkv0
    · rw [if_neg hk] at hf
      rw [← hf]
      exact h.2 kv0 hkv0

theorem connListOK_perturb (cw : Nat → ℚ) :
    ∀ (l : ConnList) (j : Nat), connListOK l → connListOK (perturb_conns cw l j) := by
  intro l
  induction l with
  | nil => intro j _; exact connListOK_nil
  | cons kv rest ih =>
    intro j h
    have hfst : (perturb_conns cw (kv :: rest) j).map Prod.fst =
        (kv :: rest).map Prod.fst := by
      have : ∀ (l' : ConnList) (j' : Nat),
          (perturb_conns cw l' j').map Prod.fst = l'.map Prod.fst := by
        intro l'
        induction l' with
        | nil => intro j'; rfl
        | cons kv' rest' ih' => intro j'; simp [perturb_conns, ih']
      exact this _ j
    refine ⟨by rw [hfst]; exact h.1, ?_⟩
    intro kv' hkv'
    simp only [perturb_conns, List.mem_cons] at hkv'
    rcases hkv' with rfl | hkv'
    · exact h.2 kv (List.mem_cons_self _ _)
    · have hr := (ih (j + 1) ⟨(List.nodup_cons.mp (by simpa using h.1)).2,
        fun kv0 hkv0 => h.2 kv0 (List.mem_cons_of_mem _ hkv0)⟩).2
      exact hr kv' hkv'

theorem connListOK_inherit (p2conns : ConnList) (r : CrossRand) :
    ∀ (l : ConnList) (m : Nat) (acc : ConnList),
      (∀ kv ∈ l, kv.1 = kv.2.key) → connListOK acc →
      connListOK (inherit_conns p2conns r l m acc) := by
  intro l
  induction l with
  | nil => intro m acc _ hacc; exact hacc
  | cons kv rest ih =>
    intro m acc hl hacc
    have hrest : ∀ kv' ∈ rest, kv'.1 = kv'.2.key := fun kv' h' =>
      hl kv' (List.mem_cons_of_mem _ h')
    cases hf : dictFind p2conns kv.1 with
    | none =>
      simp only [inherit_conns, hf]
      refine ih (m + 1) _ hrest ?_
      have hk : kv.1 = kv.2.key := hl kv (List.mem_cons_self _ _)
      rw [hk]
      exact connListOK_dictInsert kv.2 hacc
    | some cg2 =>
      simp only [inherit_conns, hf]
      exact ih (m + 1) _ hrest
        (connListOK_dictInsert (kv.2.get_child cg2 (r.wCoin m) (r.eCoin m)) hacc)

theorem connOK_add_node {cfg : Config} {c : Chromosome} {choiceIdx : Nat}
    {out : Chromosome × NodeGene × ConnGene} (h : ConnOK c)
    (hres : mutate_add_node_core cfg c choiceIdx = some out) : ConnOK out.1 := by
  unfold mutate_add_node_core at hres
  cases hget : c.conn_genes.get? (choiceIdx % c.conn_genes.length) with
  | none => rw [hget] at hres; exact Option.noConfusion hres
  | some kv =>
    rw [hget] at hres
    dsimp only at hres
    obtain rfl : _ = out := Option.some.inj hres
    have h1 : connListOK (c.conn_genes.map fun kv' =>
        if kv'.1 = kv.2.key then (kv'.1, { kv'.2 with enabled := false }) else kv') :=
      connListOK_disable kv.2.key ⟨h.1, h.2⟩
    have h2 := connListOK_dictInsert
      (ConnGene.split kv.2 (c.node_genes.length + 1)).1 h1
    have h3 := connListOK_dictInsert
      (ConnGene.split kv.2 (c.node_genes.length + 1)).2 h2
    exact ⟨h3.1, h3.2⟩

theorem connOK_add_connection {c : Chromosome} (nIdx : Nat) (w : ℚ) (h : ConnOK c) :
    ConnOK (mutate_add_connection c nIdx w) := by
  unfold mutate_add_connection
  by_cases hrem : (0 : Int) <
      ((c.node_genes.length : Int) - c.num_inputs) * c.node_genes.length -
        c.conn_genes.length
  · rw [if_pos hrem]
    dsimp only
    cases hscan : scanB c.conn_genes
        (c.node_genes.flatMap fun a =>
          (c.node_genes.drop c.num_inputs).map fun b => (a, b))
        (nIdx % (((c.node_genes.length : Int) - c.num_inputs) * c.node_genes.length -
          c.conn_genes.length).toNat) with
    | none => exact h
    | some ab =>
      have hins := connListOK_dictInsert
        (⟨ab.1.id, ab.2.id, w, true⟩ : ConnGene) ⟨h.1, h.2⟩
      exact ⟨hins.1, hins.2⟩
  · rw [if_neg hrem]
    exact h

theorem connOK_delete_connection {c : Chromosome} (choiceIdx : Nat) (h : ConnOK c) :
    ConnOK (mutate_delete_connection c choiceIdx) := by
  unfold mutate_delete_connection
  by_cases hlen : 1 < c.conn_genes.length
  · rw [if_pos hlen]
    have := connListOK_sublist (List.eraseIdx_sublist c.conn_genes
      (choiceIdx % c.conn_genes.length)) ⟨h.1, h.2⟩
    exact ⟨this.1, this.2⟩
  · rw [if_neg hlen]
    exact h

theorem connOK_delete_node {c : Chromosome} (rIdx : Nat) (h : ConnOK c) :
    ConnOK (mutate_delete_node c rIdx) := by
  unfold mutate_delete_node
  by_cases hlen : c.num_inputs + c.num_outputs < c.node_genes.length
  · rw [if_pos hlen]
    dsimp only
    cases hget : c.node_genes.get? (c.num_inputs + c.num_outputs +
        rIdx % (c.node_genes.length - (c.num_inputs + c.num_outputs))) with
    | none => exact h
    | some node =>
      have hsub : (c.conn_genes.filter fun kv =>
          !(kv.2.innodeid == node.id || kv.2.outnodeid == node.id)).Sublist c.conn_genes :=
        List.filter_sublist _
      have := connListOK_sublist hsub ⟨h.1, h.2⟩
      exact ⟨this.1, this.2⟩
  · rw [if_neg hlen]
    exact h

theorem connOK_perturb {c : Chromosome} (cw nb nr : Nat → ℚ) (h : ConnOK c) :
    ConnOK (mutate_perturb c cw nb nr) := by
  have := connListOK_perturb cw c.conn_genes 0 ⟨h.1, h.2⟩
  exact ⟨this.1, this.2⟩

theorem connOK_mutate {cfg : Config} {c c' : Chromosome} {r : MutRand} (h : ConnOK c)
    (hres : mutate cfg c r = some c') : ConnOK c' := by
  unfold mutate at hres
  cases hbr : branchOf cfg r.r1 r.r2 r.r3 with
  | addNode =>
    rw [hbr] at hres
    dsimp only at hres
    cases hcore : mutate_add_node_core cfg c r.choiceIdx with
    | none => rw [hcore] at hres; exact Option.noConfusion hres
    | some out =>
      rw [hcore] at hres
      simp only [Option.map_some'] at hres
      obtain rfl : out.1 = c' := Option.some.inj hres
      exact connOK_add_node h hcore
  | addConn =>
    rw [hbr] at hres
    dsimp only at hres
    obtain rfl : mutate_add_connection c r.nIdx r.gaussW = c' := Option.some.inj hres
    exact connOK_add_connection r.nIdx r.gaussW h
  | delConn =>
    rw [hbr] at hres
    dsimp only at hres
    obtain rfl : mutate_delete_connection c r.choiceIdx = c' := Option.some.inj hres
    exact connOK_delete_connection r.choiceIdx h
  | perturb =>
    rw [hbr] at hres
    dsimp only at hres
    obtain rfl : mutate_perturb c r.connW r.nodeB r.nodeR = c' := Option.some.inj hres
    exact connOK_perturb r.connW r.nodeB r.nodeR h

theorem connOK_crossover {cfg : Config} {s o c' : Chromosome} {nid : Nat} {r : CrossRand}
    (hs : ConnOK s) (ho : ConnOK o) (hres : crossover cfg s o nid r = some c') :
    ConnOK c' := by
  unfold crossover at hres
  by_cases hsp : s.species_id = o.species_id
  · rw [if_pos hsp] at hres
    obtain rfl : _ = c' := Option.some.inj hres
    by_cases hgt : pyGtF s.fitness o.fitness = true
    · rw [if_pos hgt]
      have := connListOK_inherit o.conn_genes r s.conn_genes 0 [] hs.keyEq connListOK_nil
      exact ⟨this.1, this.2⟩
    · rw [if_neg hgt]
      have := connListOK_inherit s.conn_genes r o.conn_genes 0 [] ho.keyEq connListOK_nil
      exact ⟨this.1, this.2⟩
  · rw [if_neg hsp] at hres
    exact Option.noConfusion hres

theorem connOK_min_go (cfg : Config) (cOr : Nat → Nat) (wOr : Nat → ℚ)
    (allNodes : List NodeGene) :
    ∀ (ns : List NodeGene) (j : Nat) (conns conns' : ConnList), connListOK conns →
      min_go cfg cOr wOr allNodes ns j conns = some conns' → connListOK conns' := by
  intro ns
  induction ns with
  | nil =>
    intro j conns conns' hc hres
    obtain rfl : conns = conns' := Option.some.inj hres
    exact hc
  | cons ng rest ih =>
    intro j conns conns' hc hres
    by_cases hng : ng.type = .OUTPUT
    · rw [min_go, if_pos hng] at hres
      cases hch : pyChoice (allNodes.take cfg.input_nodes) (cOr j) with
      | none => rw [hch] at hres; exact Option.noConfusion hres
      | some inp =>
        rw [hch] at hres
        exact ih (j + 1) _ conns'
          (connListOK_dictInsert (⟨inp.id, ng.id, wOr j, true⟩ : ConnGene) hc) hres
    · rw [min_go, if_neg hng] at hres
      exact ih j conns conns' hc hres

theorem connOK_connect_inputs_to (w : Nat → ℚ) (outId : Nat) :
    ∀ (inputs : List NodeGene) (j : Nat) (conns : ConnList), connListOK conns →
      connListOK (connect_inputs_to w inputs outId j conns).1 := by
  intro inputs
  induction inputs with
  | nil => intro j conns hc; exact hc
  | cons inp rest ih =>
    intro j conns hc
    simp only [connect_inputs_to]
    exact ih (j + 1) _ (connListOK_dictInsert (⟨inp.id, outId, w j, true⟩ : ConnGene) hc)

theorem connOK_fully_go (w : Nat → ℚ) (inputs : List NodeGene) :
    ∀ (ns : List NodeGene) (j : Nat) (conns : ConnList), connListOK conns →
      connListOK (fully_go w inputs ns j conns) := by
  intro ns
  induction ns with
  | nil => intro j conns hc; exact hc
  | cons ng rest ih =>
    intro j conns hc
    by_cases hng : ng.type = .OUTPUT
    · rw [fully_go, if_pos hng]
      exact ih _ _ (connOK_connect_inputs_to w ng.id inputs j conns hc)
    · rw [fully_go, if_neg hng]
      exact ih j conns hc

/-- Every reachable chromosome has a well-keyed, duplicate-free
connection dictionary. -/
theorem reach_connOK {cfg : Config} {d : Bool} {c : Chromosome} (h : Reach cfg d c) :
    ConnOK c := by
  induction h with
  | unconnected d => exact ⟨List.nodup_nil, fun _ h => absurd h (List.not_mem_nil _)⟩
  | minimal d cOr wOr c hmin =>
    unfold create_minimally_connected at hmin
    cases hgo : min_go cfg cOr wOr (create_unconnected cfg).node_genes
        (create_unconnected cfg).node_genes 0 (create_unconnected cfg).conn_genes with
    | none => rw [hgo] at hmin; exact Option.noConfusion hmin
    | some conns =>
      rw [hgo] at hmin
      obtain rfl : _ = c := Option.some.inj hmin
      have := connOK_min_go cfg cOr wOr _ _ 0 _ conns connListOK_nil hgo
      exact ⟨this.1, this.2⟩
  | fully d w =>
    have := connOK_fully_go w ((create_unconnected cfg).node_genes.take cfg.input_nodes)
      (create_unconnected cfg).node_genes 0 (create_unconnected cfg).conn_genes
      connListOK_nil
    exact ⟨this.1, this.2⟩
  | mutStep d c c' r hc hstep ih => exact connOK_mutate ih hstep
  | delNode c rIdx hc ih => exact connOK_delete_node _ ih
  | cross d c₁ c₂ c' nid r h₁ h₂ hstep ih₁ ih₂ => exact connOK_crossover ih₁ ih₂ hstep
  | setFitness d c f hc ih => exact ⟨ih.1, ih.2⟩
  | setSpecies d c sid hc ih => exact ⟨ih.1, ih.2⟩

/-- Claim C5: for any chromosome reachable by factory construction and
any sequence of mutations (delete-node included) and crossovers, no two
stored connection genes share the same `(sourceNodeId, targetNodeId)`
pair. -/
theorem conn_key_uniqueness {cfg : Config} {d : Bool} {c : Chromosome}
    (h : Reach cfg d c) : (connKeyPairs c).Nodup := by
  have hok := reach_connOK h
  have heq : connKeyPairs c = c.conn_genes.map Prod.fst := by
    unfold connKeyPairs
    refine List.map_congr_left fun kv hkv => ?_
    exact (hok.keyEq kv hkv).symm
  rw [heq]
  exact hok.nodup

/-- Witness for claim C5 at a concrete reachable chromosome. -/
theorem conn_key_uniqueness_witness :
    (connKeyPairs (create_fully_connected cfgAdd wOne)).Nodup :=
  conn_key_uniqueness (Reach.fully true wOne)

/-! ### Claim C7: node id density -/

theorem idType_map_len {l l' : List NodeGene} (h : l'.map idType = l.map idType) :
    l'.length = l.length := by
  have := congrArg List.length h
  simpa using this

theorem idType_map_get {l l' : List NodeGene} (h : l'.map idType = l.map idType)
    (k : Nat) (hk : k < l'.length) (hk' : k < l.length) :
    idType (l'.get ⟨k, hk⟩) = idType (l.get ⟨k, hk'⟩) := by
  have h1 : (l'.map idType).get? k = (l.map idType).get? k := by rw [h]
  rw [List.get?_map, List.get?_map, List.get?_eq_get hk, List.get?_eq_get hk'] at h1
  simpa using h1

theorem denseInv_of_idType {cfg : Config} {c c' : Chromosome}
    (hmap : c'.node_genes.map idType = c.node_genes.map idType)
    (hnum : c'.num_inputs = c.num_inputs) (h : DenseInv cfg c) : DenseInv cfg c' := by
  have hlen := idType_map_len hmap
  refine ⟨hnum.trans h.num_in, ?_, ?_, ?_⟩
  · rw [hlen]
    exact h.len_ge
  · intro k hk
    have hk' : k < c.node_genes.length := by rw [← hlen]; exact hk
    have he := idType_map_get hmap k hk hk'
    have hid : (c'.node_genes.get ⟨k, hk⟩).id = (c.node_genes.get ⟨k, hk'⟩).id :=
      congrArg Prod.fst he
    rw [hid]
    exact h.ids k hk'
  · intro k hk
    have hk' : k < c.node_genes.length := by rw [← hlen]; exact hk
    have he := idType_map_get hmap k hk hk'
    have hty : (c'.node_genes.get ⟨k, hk⟩).type = (c.node_genes.get ⟨k, hk'⟩).type :=
      congrArg Prod.snd he
    rw [hty]
    exact h.types k hk'

theorem denseInv_copy {cfg : Config} {c c' : Chromosome}
    (hn : c'.node_genes = c.node_genes) (hnum : c'.num_inputs = c.num_inputs)
    (h : DenseInv cfg c) : DenseInv cfg c' :=
  denseInv_of_idType (by rw [hn]) hnum h

theorem mkInputNodes_get (cfg : Config) (k : Nat) (hk : k < (mkInputNodes cfg).length) :
    (mkInputNodes cfg).get ⟨k, hk⟩ =
      { id := k + 1, type := .INPUT, bias := 0, response := 0, activation := "" } := by
  simp [mkInputNodes]

theorem mkOutputNodes_get (cfg : Config) (k : Nat) (hk : k < (mkOutputNodes cfg).length) :
    (mkOutputNodes cfg).get ⟨k, hk⟩ =
      { id := cfg.input_nodes + 1 + k, type := .OUTPUT, bias := 0, response := 0,
        activation := cfg.nn_activation } := by
  simp [mkOutputNodes]

theorem create_unconnected_len (cfg : Config) :
    (create_unconnected cfg).node_genes.length = cfg.input_nodes + cfg.output_nodes := by
  simp [create_unconnected, mkInputNodes, mkOutputNodes]

theorem denseInv_create_unconnected (cfg : Config) : DenseInv cfg (create_unconnected cfg) := by
  have hI : (mkInputNodes cfg).length = cfg.input_nodes := by simp [mkInputNodes]
  have hO : (mkOutputNodes cfg).length = cfg.output_nodes := by simp [mkOutputNodes]
  have hpoint : ∀ k (hk : k < (create_unconnected cfg).node_genes.length),
      ((create_unconnected cfg).node_genes.get ⟨k, hk⟩).id = k + 1 ∧
      ((create_unconnected cfg).node_genes.get ⟨k, hk⟩).type = zoneType cfg k := by
    intro k hk
    have hklen : k < cfg.input_nodes + cfg.output_nodes := by
      rw [← create_unconnected_len cfg]
      exact hk
    by_cases hkI : k < cfg.input_nodes
    · have hkI' : k < (mkInputNodes cfg).length := by rw [hI]; exact hkI
      have hget : (create_unconnected cfg).node_genes.get ⟨k, hk⟩ =
          (mkInputNodes cfg).get ⟨k, hkI'⟩ := by
        show (mkInputNodes cfg ++ mkOutputNodes cfg).get ⟨k, hk⟩ = _
        simp [List.getElem_append_left, hkI']
      rw [hget, mkInputNodes_get]
      exact ⟨rfl, by simp [zoneType, hkI]⟩
    · have hge : (mkInputNodes cfg).length ≤ k := by rw [hI]; omega
      have hkO : k - (mkInputNodes cfg).length < (mkOutputNodes cfg).length := by
        rw [hI, hO]
        omega
      have hget : (create_unconnected cfg).node_genes.get ⟨k, hk⟩ =
          (mkOutputNodes cfg).get ⟨k - (mkInputNodes cfg).length, hkO⟩ := by
        show (mkInputNodes cfg ++ mkOutputNodes cfg).get ⟨k, hk⟩ = _
        simp [List.getElem_append_right, hge]
      rw [hget, mkOutputNodes_get]
      constructor
      · show cfg.input_nodes + 1 + (k - (mkInputNodes cfg).length) = k + 1
        rw [hI]
        omega
      · show NodeType.OUTPUT = zoneType cfg k
        unfold zoneType
        rw [if_neg hkI, if_pos hklen]
  refine ⟨rfl, ?_, fun k hk => (hpoint k hk).1, fun k hk => (hpoint k hk).2⟩
  rw [create_unconnected_len cfg]

theorem denseInv_add_node {cfg : Config} {c : Chromosome} {choiceIdx : Nat}
    {out : Chromosome × NodeGene × ConnGene} (h : DenseInv cfg c)
    (hres : mutate_add_node_core cfg c choiceIdx = some out) : DenseInv cfg out.1 := by
  unfold mutate_add_node_core at hres
  cases hget : c.conn_genes.get? (choiceIdx % c.conn_genes.length) with
  | none => rw [hget] at hres; exact Option.noConfusion hres
  | some kv =>
    rw [hget] at hres
    dsimp only at hres
    obtain rfl : _ = out := Option.some.inj hres
    refine ⟨h.num_in, ?_, ?_, ?_⟩
    · simp only [List.length_append, List.length_cons, List.length_nil]
      have := h.len_ge
      omega
    · intro k hk
      rw [List.get_eq_getElem]
      by_cases hkl : k < c.node_genes.length
      · rw [List.getElem_append_left hkl]
        have hi := h.ids k hkl
        rw [List.get_eq_getElem] at hi
        exact hi
      · have hk2 : k < c.node_genes.length + 1 := by simpa using hk
        have hk0 : k = c.node_genes.length := by omega
        rw [List.getElem_concat_length _ _ _ hk0]
        rw [hk0]
    · intro k hk
      rw [List.get_eq_getElem]
      by_cases hkl : k < c.node_genes.length
      · rw [List.getElem_append_left hkl]
        have hi := h.types k hkl
        rw [List.get_eq_getElem] at hi
        exact hi
      · have hk2 : k < c.node_genes.length + 1 := by simpa using hk
        have hk0 : k = c.node_genes.length := by omega
        rw [List.getElem_concat_length _ _ _ hk0]
        show NodeType.HIDDEN = zoneType cfg k
        have := h.len_ge
        unfold zoneType
        rw [if_neg (by omega), if_neg (by omega)]

theorem perturb_nodes_idType (nb nr : Nat → ℚ) :
    ∀ (l : List NodeGene) (j : Nat), (perturb_nodes nb nr l j).map idType = l.map idType := by
  intro l
  induction l with
  | nil => intro j; rfl
  | cons ng rest ih => intro j; simp [perturb_nodes, idType, ih]

theorem mutate_perturb_idType (c : Chromosome) (cw nb nr : Nat → ℚ) :
    (mutate_perturb c cw nb nr).node_genes.map idType = c.node_genes.map idType := by
  show (c.node_genes.take c.num_inputs ++
      perturb_nodes nb nr (c.node_genes.drop c.num_inputs) 0).map idType = _
  rw [List.map_append, perturb_nodes_idType, ← List.map_append, List.take_append_drop]

theorem inherit_nodes_idType (p2nodes : List NodeGene) (r : CrossRand) :
    ∀ (l : List NodeGene) (m : Nat), (inherit_nodes p2nodes r l m).map idType = l.map idType := by
  intro l
  induction l with
  | nil => intro m; rfl
  | cons ng rest ih =>
    intro m
    cases hg : p2nodes.get? m with
    | none => simp only [inherit_nodes, hg, List.map_cons, ih]
    | some ng2 =>
      simp only [inherit_nodes, hg, List.map_cons, ih, NodeGene.get_child]
      rfl

theorem mutate_add_connection_frame (c : Chromosome) (nIdx : Nat) (w : ℚ) :
    (mutate_add_connection c nIdx w).node_genes = c.node_genes ∧
    (mutate_add_connection c nIdx w).num_inputs = c.num_inputs ∧
    (mutate_add_connection c nIdx w).num_outputs = c.num_outputs := by
  unfold mutate_add_connection
  by_cases hrem : (0 : Int) <
      ((c.node_genes.length : Int) - c.num_inputs) * c.node_genes.length -
        c.conn_genes.length
  · rw [if_pos hrem]
    dsimp only
    cases scanB c.conn_genes
        (c.node_genes.flatMap fun a =>
          (c.node_genes.drop c.num_inputs).map fun b => (a, b))
        (nIdx % (((c.node_genes.length : Int) - c.num_inputs) * c.node_genes.length -
          c.conn_genes.length).toNat) with
    | none => exact ⟨rfl, rfl, rfl⟩
    | some ab => exact ⟨rfl, rfl, rfl⟩
  · rw [if_neg hrem]
    exact ⟨rfl, rfl, rfl⟩

theorem mutate_delete_connection_frame (c : Chromosome) (choiceIdx : Nat) :
    (mutate_delete_connection c choiceIdx).node_genes = c.node_genes ∧
    (mutate_delete_connection c choiceIdx).num_inputs = c.num_inputs ∧
    (mutate_delete_connection c choiceIdx).num_outputs = c.num_outputs := by
  unfold mutate_delete_connection
  by_cases hlen : 1 < c.conn_genes.length
  · rw [if_pos hlen]
    exact ⟨rfl, rfl, rfl⟩
  · rw [if_neg hlen]
    exact ⟨rfl, rfl, rfl⟩

theorem denseInv_mutate {cfg : Config} {c c' : Chromosome} {r : MutRand}
    (h : DenseInv cfg c) (hres : mutate cfg c r = some c') : DenseInv cfg c' := by
  unfold mutate at hres
  cases hbr : branchOf cfg r.r1 r.r2 r.r3 with
  | addNode =>
    rw [hbr] at hres
    dsimp only at hres
    cases hcore : mutate_add_node_core cfg c r.choiceIdx with
    | none => rw [hcore] at hres; exact Option.noConfusion hres
    | some out =>
      rw [hcore] at hres
      simp only [Option.map_some'] at hres
      obtain rfl : out.1 = c' := Option.some.inj hres
      exact denseInv_add_node h hcore
  | addConn =>
    rw [hbr] at hres
    dsimp only at hres
    obtain rfl : mutate_add_connection c r.nIdx r.gaussW = c' := Option.some.inj hres
    exact denseInv_copy (mutate_add_connection_frame c r.nIdx r.gaussW).1
      (mutate_add_connection_frame c r.nIdx r.gaussW).2.1 h
  | delConn =>
    rw [hbr] at hres
    dsimp only at hres
    obtain rfl : mutate_delete_connection c r.choiceIdx = c' := Option.some.inj hres
    exact denseInv_copy (mutate_delete_connection_frame c r.choiceIdx).1
      (mutate_delete_connection_frame c r.choiceIdx).2.1 h
  | perturb =>
    rw [hbr] at hres
    dsimp only at hres
    obtain rfl : mutate_perturb c r.connW r.nodeB r.nodeR = c' := Option.some.inj hres
    exact denseInv_of_idType (mutate_perturb_idType c r.connW r.nodeB r.nodeR) rfl h

theorem denseInv_crossover {cfg : Config} {s o c' : Chromosome} {nid : Nat} {r : CrossRand}
    (hs : DenseInv cfg s) (ho : DenseInv cfg o)
    (hres : crossover cfg s o nid r = some c') : DenseInv cfg c' := by
  unfold crossover at hres
  by_cases hsp : s.species_id = o.species_id
  · rw [if_pos hsp] at hres
    obtain rfl : _ = c' := Option.some.inj hres
    by_cases hgt : pyGtF s.fitness o.fitness = true
    · rw [if_pos hgt]
      refine denseInv_of_idType ?_ ?_ hs
      · exact inherit_nodes_idType o.node_genes r s.node_genes 0
      · show cfg.input_nodes = s.num_inputs
        rw [hs.num_in]
    · rw [if_neg hgt]
      refine denseInv_of_idType ?_ ?_ ho
      · exact inherit_nodes_idType s.node_genes r o.node_genes 0
      · show cfg.input_nodes = o.num_inputs
        rw [ho.num_in]
  · rw [if_neg hsp] at hres
    exact Option.noConfusion hres

/-- Without delete-node, every reachable chromosome keeps the dense
layered node layout. -/
theorem reach_denseInv {cfg : Config} {d : Bool} {c : Chromosome} (h : Reach cfg d c) :
    d = false → DenseInv cfg c := by
  induction h with
  | unconnected d => exact fun _ => denseInv_create_unconnected cfg
  | minimal d cOr wOr c hmin =>
    intro _
    unfold create_minimally_connected at hmin
    cases hgo : min_go cfg cOr wOr (create_unconnected cfg).node_genes
        (create_unconnected cfg).node_genes 0 (create_unconnected cfg).conn_genes with
    | none => rw [hgo] at hmin; exact Option.noConfusion hmin
    | some conns =>
      rw [hgo] at hmin
      obtain rfl : _ = c := Option.some.inj hmin
      refine denseInv_copy ?_ ?_ (denseInv_create_unconnected cfg) <;> rfl
  | fully d w =>
    intro _
    refine denseInv_copy ?_ ?_ (denseInv_create_unconnected cfg) <;> rfl
  | mutStep d c c' r hc hstep ih => exact fun hd => denseInv_mutate (ih hd) hstep
  | delNode c rIdx hc ih => exact fun hd => Bool.noConfusion hd
  | cross d c₁ c₂ c' nid r h₁ h₂ hstep ih₁ ih₂ =>
    exact fun hd => denseInv_crossover (ih₁ hd) (ih₂ hd) hstep
  | setFitness d c f hc ih =>
    intro hd
    refine denseInv_copy ?_ ?_ (ih hd) <;> rfl
  | setSpecies d c sid hc ih =>
    intro hd
    refine denseInv_copy ?_ ?_ (ih hd) <;> rfl

theorem denseFrom_of_pointwise (cfg : Config) :
    ∀ (l : List NodeGene) (i : Nat),
      (∀ k (hk : k < l.length), (l.get ⟨k, hk⟩).id = i + k + 1 ∧
        (l.get ⟨k, hk⟩).type = zoneType cfg (i + k)) →
      denseFrom cfg i l = true := by
  intro l
  induction l with
  | nil => intro i _; rfl
  | cons ng rest ih =>
    intro i hp
    have h0 := hp 0 (by simp)
    simp only [List.get] at h0
    have hrest : ∀ k (hk : k < rest.length), (rest.get ⟨k, hk⟩).id = (i + 1) + k + 1 ∧
        (rest.get ⟨k, hk⟩).type = zoneType cfg ((i + 1) + k) := by
      intro k hk
      have hk1 : k + 1 < (ng :: rest).length := by
        simp only [List.length_cons]
        omega
      have hthis := hp (k + 1) hk1
      simp only [List.get] at hthis
      constructor
      · rw [show i + 1 + k + 1 = i + (k + 1) + 1 from by omega]
        exact hthis.1
      · rw [show i + 1 + k = i + (k + 1) from by omega]
        exact hthis.2
    unfold denseFrom
    rw [ih (i + 1) hrest]
    have hid : (ng.id == i + 1) = true := by
      rw [show i + 1 = i + 0 + 1 by omega] at h0 ⊢
      exact beq_iff_eq.mpr h0.1
    have hty : (ng.type == zoneType cfg i) = true := by
      rw [show zoneType cfg i = zoneType cfg (i + 0) by rw [Nat.add_zero]]
      exact beq_iff_eq.mpr h0.2
    rw [hid, hty]
    rfl

/-- Claim C7 (amended): excluding the delete-node operator (which can
leave a gap in the id range), every reachable chromosome's node ids form
the contiguous range `1..len(node_genes)`, the input nodes on ids
`1..numInputs`, the output nodes on the next `numOutputs` ids. -/
theorem node_id_density_no_delete (cfg : Config) (c : Chromosome)
    (h : Reach cfg false c) : nodeIdsDenseB cfg c = true := by
  have hd := reach_denseInv h rfl
  unfold nodeIdsDenseB
  have h1 : decide (cfg.input_nodes + cfg.output_nodes ≤ c.node_genes.length) = true :=
    decide_eq_true hd.len_ge
  have h2 : denseFrom cfg 0 c.node_genes = true := by
    refine denseFrom_of_pointwise cfg c.node_genes 0 fun k hk => ?_
    refine ⟨?_, ?_⟩
    · rw [Nat.zero_add]
      exact hd.ids k hk
    · rw [Nat.zero_add]
      exact hd.types k hk
  rw [h1, h2]
  rfl

/-- Witness for the amended claim C7 at a concrete reachable chromosome. -/
theorem node_id_density_no_delete_witness :
    nodeIdsDenseB cfgAdd (create_fully_connected cfgAdd wOne) = true :=
  node_id_density_no_delete cfgAdd (create_fully_connected cfgAdd wOne)
    (Reach.fully false wOne)

/-- Claim C7, counterexample: starting from the fully connected
1-input/1-output chromosome, two add-node mutations followed by one
delete-node (of hidden node 3, while hidden node 4 exists) produce a
reachable chromosome whose node ids are `[1, 2, 4]` — not the contiguous
range `1..3`. -/
theorem node_id_density_counterexample :
    Reach cfgAdd true chromoGap ∧ nodeIdsDenseB cfgAdd chromoGap = false := by
  constructor
  · exact Reach.delNode chromoM2 0
      (Reach.mutStep true chromoM1 chromoM2 (rAddNode 1)
        (Reach.mutStep true (create_fully_connected cfgAdd wOne) chromoM1 (rAddNode 0)
          (Reach.fully true wOne) (by decide))
        (by decide))
  · decide

/-- Witness for claim C8 at a concrete 1-input/1-output configuration. -/
theorem minimally_connected_spec_witness :
    create_minimally_connected cfgAdd (fun _ => 0) (fun _ => 0) =
      some { create_unconnected cfgAdd with
        conn_genes := (List.range cfgAdd.output_nodes).map fun j =>
          (((fun _ => 0) j % cfgAdd.input_nodes + 1, cfgAdd.input_nodes + 1 + j),
            ⟨(fun _ => 0) j % cfgAdd.input_nodes + 1, cfgAdd.input_nodes + 1 + j,
              (fun _ => (0 : ℚ)) j, true⟩) } :=
  (minimally_connected_spec cfgAdd (fun _ => 0) (fun _ => 0) (by decide) (by decide)).1

/-! ### Claim C1: feedforward closure — order and zone lemmas -/

theorem zoneType_input {cfg : Config} {k : Nat} (h : k < cfg.input_nodes) :
    zoneType cfg k = .INPUT := by
  unfold zoneType
  rw [if_pos h]

theorem zoneType_output {cfg : Config} {k : Nat} (h1 : cfg.input_nodes ≤ k)
    (h2 : k < cfg.input_nodes + cfg.output_nodes) : zoneType cfg k = .OUTPUT := by
  unfold zoneType
  rw [if_neg (by omega), if_pos h2]

theorem zoneType_hidden {cfg : Config} {k : Nat}
    (h : cfg.input_nodes + cfg.output_nodes ≤ k) : zoneType cfg k = .HIDDEN := by
  unfold zoneType
  rw [if_neg (by omega), if_neg (by omega)]

theorem zoneType_input_iff {cfg : Config} {k : Nat} :
    zoneType cfg k = .INPUT ↔ k < cfg.input_nodes := by
  unfold zoneType
  split_ifs with h1 h2 <;> simp_all

theorem zoneType_output_iff {cfg : Config} {k : Nat} :
    zoneType cfg k = .OUTPUT ↔ cfg.input_nodes ≤ k ∧ k < cfg.input_nodes + cfg.output_nodes := by
  unfold zoneType
  split_ifs with h1 h2 <;> simp_all

theorem zoneType_hidden_iff {cfg : Config} {k : Nat} :
    zoneType cfg k = .HIDDEN ↔ cfg.input_nodes + cfg.output_nodes ≤ k := by
  unfold zoneType
  split_ifs with h1 h2 <;> simp_all
  omega

theorem idxOf?_lt_length {l : List Nat} {x i : Nat} (h : idxOf? l x = some i) :
    i < l.length := by
  induction l generalizing i with
  | nil => exact Option.noConfusion h
  | cons y l ih =>
    by_cases hy : y = x
    · simp only [idxOf?, if_pos hy] at h
      obtain rfl : 0 = i := Option.some.inj h
      simp
    · simp only [idxOf?, if_neg hy] at h
      cases hrec : idxOf? l x with
      | none => rw [hrec] at h; exact Option.noConfusion h
      | some i0 =>
        rw [hrec] at h
        simp only [Option.map_some'] at h
        obtain rfl : i0 + 1 = i := Option.some.inj h
        have := ih hrec
        simp only [List.length_cons]
        omega

theorem idxOf?_mem {l : List Nat} {x i : Nat} (h : idxOf? l x = some i) : x ∈ l := by
  induction l generalizing i with
  | nil => exact Option.noConfusion h
  | cons y l ih =>
    by_cases hy : y = x
    · rw [hy]
      exact List.mem_cons_self _ _
    · simp only [idxOf?, if_neg hy] at h
      cases hrec : idxOf? l x with
      | none => rw [hrec] at h; exact Option.noConfusion h
      | some i0 => exact List.mem_cons_of_mem _ (ih hrec)

theorem mem_idxOf? {l : List Nat} {x : Nat} (h : x ∈ l) : ∃ i, idxOf? l x = some i := by
  induction l with
  | nil => exact absurd h (List.not_mem_nil _)
  | cons y l ih =>
    by_cases hy : y = x
    · exact ⟨0, by simp [idxOf?, hy]⟩
    · rcases List.mem_cons.mp h with h0 | h0
      · exact (hy h0.symm).elim
      · obtain ⟨i, hi⟩ := ih h0
        exact ⟨i + 1, by simp [idxOf?, hy, hi]⟩

theorem insertAt_zero (l : List Nat) (x : Nat) : insertAt l 0 x = x :: l := by
  simp [insertAt]

theorem insertAt_cons_succ (a : Nat) (l : List Nat) (p x : Nat) :
    insertAt (a :: l) (p + 1) x = a :: insertAt l p x := by
  simp [insertAt]

theorem insertAt_nil (p x : Nat) : insertAt [] p x = [x] := by
  simp [insertAt]

theorem insertAt_length {l : List Nat} {p : Nat} (x : Nat) (h : p ≤ l.length) :
    (insertAt l p x).length = l.length + 1 := by
  unfold insertAt
  simp
  omega

theorem mem_insertAt {l : List Nat} {p x y : Nat} :
    y ∈ insertAt l p x ↔ y = x ∨ y ∈ l := by
  unfold insertAt
  constructor
  · intro h
    rcases List.mem_append.mp h with h | h
    · exact Or.inr (List.mem_of_mem_take h)
    · rcases List.mem_cons.mp h with h | h
      · exact Or.inl h
      · exact Or.inr (List.mem_of_mem_drop h)
  · intro h
    rcases h with rfl | h
    · exact List.mem_append.mpr (Or.inr (List.mem_cons_self _ _))
    · by_cases hm : y ∈ l.take p
      · exact List.mem_append.mpr (Or.inl hm)
      · have : y ∈ l.take p ++ l.drop p := by rw [List.take_append_drop]; exact h
        rcases List.mem_append.mp this with h' | h'
        · exact (hm h').elim
        · exact List.mem_append.mpr (Or.inr (List.mem_cons_of_mem _ h'))

theorem insertAt_nodup {l : List Nat} {p x : Nat} (hx : x ∉ l) (h : l.Nodup) :
    (insertAt l p x).Nodup := by
  unfold insertAt
  have h1 : (l.take p ++ l.drop p).Nodup := by rw [List.take_append_drop]; exact h
  rw [List.nodup_append] at h1
  rw [List.nodup_append]
  refine ⟨h1.1, List.nodup_cons.mpr ⟨fun hc => hx (List.mem_of_mem_drop hc), h1.2.1⟩, ?_⟩
  intro a ha hb
  rcases List.mem_cons.mp hb with rfl | hb
  · exact hx (List.mem_of_mem_take ha)
  · exact h1.2.2 ha hb

theorem idxOf?_cons_eq {x y : Nat} (l : List Nat) (h : x = y) :
    idxOf? (x :: l) y = some 0 := by
  simp [idxOf?, h]

theorem idxOf?_cons_of_ne {x y : Nat} (l : List Nat) (h : x ≠ y) :
    idxOf? (x :: l) y = (idxOf? l y).map (· + 1) := by
  simp [idxOf?, h]

theorem idxOf?_insertAt_old {l : List Nat} {x y i : Nat} (hxy : y ≠ x)
    (h : idxOf? l y = some i) :
    ∀ p, idxOf? (insertAt l p x) y = some (if i < p then i else i + 1) := by
  induction l generalizing i with
  | nil => exact Option.noConfusion h
  | cons a l ih =>
    intro p
    cases p with
    | zero =>
      rw [insertAt_zero, idxOf?_cons_of_ne _ (fun hh => hxy hh.symm), h]
      simp only [Option.map_some']
      rw [if_neg (by omega)]
    | succ q =>
      rw [insertAt_cons_succ]
      by_cases ha : a = y
      · rw [idxOf?_cons_eq _ ha]
        rw [idxOf?_cons_eq _ ha] at h
        obtain rfl : 0 = i := Option.some.inj h
        rw [if_pos (by omega)]
      · rw [idxOf?_cons_of_ne _ ha]
        rw [idxOf?_cons_of_ne _ ha] at h
        cases hrec : idxOf? l y with
        | none => rw [hrec] at h; exact Option.noConfusion h
        | some i0 =>
          rw [hrec] at h
          simp only [Option.map_some'] at h
          obtain rfl : i0 + 1 = i := Option.some.inj h
          rw [ih hrec q]
          simp only [Option.map_some']
          by_cases hlt : i0 < q
          · rw [if_pos hlt, if_pos (by omega)]
          · rw [if_neg hlt, if_neg (by omega)]

theorem idxOf?_insertAt_self {l : List Nat} {x : Nat} (hx : x ∉ l) :
    ∀ p, p ≤ l.length → idxOf? (insertAt l p x) x = some p := by
  induction l with
  | nil =>
    intro p hp
    have hp0 : p = 0 := by simpa using hp
    subst hp0
    simp [insertAt_nil, idxOf?]
  | cons a l ih =>
    intro p hp
    cases p with
    | zero => simp [insertAt_zero, idxOf?]
    | succ q =>
      rw [insertAt_cons_succ]
      have ha : a ≠ x := fun hh => hx (hh ▸ List.mem_cons_self _ _)
      rw [idxOf?_cons_of_ne _ ha,
        ih (fun hc => hx (List.mem_cons_of_mem _ hc)) q (by simpa using hp)]
      rfl

/-! ### Claim C1: node lookup, slice and scan lemmas -/

theorem denseInv_node_at {cfg : Config} {c : Chromosome} (h : DenseInv cfg c) {x : Nat}
    (h1 : 1 ≤ x) (h2 : x ≤ c.node_genes.length) :
    ∃ nd, c.node_genes.get? (x - 1) = some nd ∧ nd.id = x ∧
      nd.type = zoneType cfg (x - 1) := by
  have hlt : x - 1 < c.node_genes.length := by omega
  refine ⟨c.node_genes.get ⟨x - 1, hlt⟩, List.get?_eq_get hlt, ?_, h.types _ hlt⟩
  rw [h.ids _ hlt]
  omega

theorem mem_take_node {l : List NodeGene} {m : Nat} {y : NodeGene} (h : y ∈ l.take m) :
    ∃ k, ∃ hk : k < l.length, k < m ∧ y = l.get ⟨k, hk⟩ := by
  obtain ⟨k, hk, heq⟩ := List.getElem_of_mem h
  have hk2 : k < m ∧ k < l.length := by
    have := hk
    rw [List.length_take] at this
    omega
  refine ⟨k, hk2.2, hk2.1, ?_⟩
  rw [List.get_eq_getElem, ← List.getElem_take l]
  · exact heq.symm

theorem mem_drop_node {l : List NodeGene} {m : Nat} {y : NodeGene} (h : y ∈ l.drop m) :
    ∃ k, ∃ hk : k < l.length, m ≤ k ∧ y = l.get ⟨k, hk⟩ := by
  obtain ⟨k, hk, heq⟩ := List.getElem_of_mem h
  have hlen : (l.drop m).length = l.length - m := List.length_drop m l
  have hk2 : m + k < l.length := by omega
  refine ⟨m + k, hk2, by omega, ?_⟩
  rw [List.get_eq_getElem, ← List.getElem_drop l]
  · exact heq.symm

theorem scanFF_sound {conns : ConnList} {order : List Nat} :
    ∀ (cands : List (NodeGene × NodeGene)) (n : Nat) (ab : NodeGene × NodeGene),
      scanFF conns order cands n = some (some ab) →
      ab ∈ cands ∧ dictMem conns (ab.1.id, ab.2.id) = false ∧
        isConnFFb order ab.1 ab.2 = some true := by
  intro cands
  induction cands with
  | nil =>
    intro n ab h
    exact Option.noConfusion (Option.some.inj h)
  | cons hd rest ih =>
    intro n ab h
    by_cases hm : dictMem conns (hd.1.id, hd.2.id) = true
    · rw [scanFF, if_pos hm] at h
      obtain ⟨h1, h2, h3⟩ := ih n ab h
      exact ⟨List.mem_cons_of_mem _ h1, h2, h3⟩
    · have hm' : dictMem conns (hd.1.id, hd.2.id) = false := by
        cases hb : dictMem conns (hd.1.id, hd.2.id)
        · rfl
        · exact absurd hb hm
      rw [scanFF, if_neg hm] at h
      cases hff : isConnFFb order hd.1 hd.2 with
      | none =>
        rw [hff] at h
        exact Option.noConfusion h
      | some b =>
        rw [hff] at h
        cases b with
        | false =>
          obtain ⟨h1, h2, h3⟩ := ih n ab h
          exact ⟨List.mem_cons_of_mem _ h1, h2, h3⟩
        | true =>
          by_cases hn : n = 0
          · rw [if_pos hn] at h
            obtain rfl : hd = ab := Option.some.inj (Option.some.inj h)
            exact ⟨List.mem_cons_self _ _, hm', hff⟩
          · rw [if_neg hn] at h
            obtain ⟨h1, h2, h3⟩ := ih (n - 1) ab h
            exact ⟨List.mem_cons_of_mem _ h1, h2, h3⟩

theorem scanFF_first_block {conns : ConnList} {order : List Nat} :
    ∀ (P Q : List (NodeGene × NodeGene)) (n : Nat),
      (∀ ab ∈ P, dictMem conns (ab.1.id, ab.2.id) = false →
        isConnFFb order ab.1 ab.2 = some true) →
      n < countFreeP conns P →
      ∃ ab, ab ∈ P ∧ scanFF conns order (P ++ Q) n = some (some ab) := by
  intro P
  induction P with
  | nil =>
    intro Q n _ hn
    simp [countFreeP] at hn
  | cons hd rest ih =>
    intro Q n hP hn
    by_cases hm : dictMem conns (hd.1.id, hd.2.id) = true
    · have hcf : countFreeP conns (hd :: rest) = countFreeP conns rest := by
        simp [countFreeP, List.filter_cons, hm]
      rw [hcf] at hn
      obtain ⟨ab, hab, hscan⟩ :=
        ih Q n (fun ab h hm0 => hP ab (List.mem_cons_of_mem _ h) hm0) hn
      refine ⟨ab, List.mem_cons_of_mem _ hab, ?_⟩
      rw [List.cons_append, scanFF, if_pos hm]
      exact hscan
    · have hm' : dictMem conns (hd.1.id, hd.2.id) = false := by
        cases hb : dictMem conns (hd.1.id, hd.2.id)
        · rfl
        · exact absurd hb hm
      have hff := hP hd (List.mem_cons_self _ _) hm'
      have hcf : countFreeP conns (hd :: rest) = countFreeP conns rest + 1 := by
        simp [countFreeP, List.filter_cons, hm']
      cases n with
      | zero =>
        refine ⟨hd, List.mem_cons_self _ _, ?_⟩
        rw [List.cons_append, scanFF, if_neg hm, hff]
        rfl
      | succ n' =>
        rw [hcf] at hn
        obtain ⟨ab, hab, hscan⟩ :=
          ih Q n' (fun ab h hm0 => hP ab (List.mem_cons_of_mem _ h) hm0) (by omega)
        refine ⟨ab, List.mem_cons_of_mem _ hab, ?_⟩
        rw [List.cons_append, scanFF, if_neg hm, hff]
        rw [if_neg (by omega)]
        simpa using hscan

theorem length_filter_split {α : Type} (p : α → Bool) (l : List α) :
    (l.filter p).length + (l.filter fun x => !p x).length = l.length := by
  induction l with
  | nil => rfl
  | cons x l ih =>
    by_cases h : p x = true <;> simp [List.filter_cons, h] <;> omega

theorem flatMap_pairs_length (l₁ l₂ : List NodeGene) :
    (l₁.flatMap fun a => l₂.map fun b => (a, b)).length = l₁.length * l₂.length := by
  induction l₁ with
  | nil => simp
  | cons a l ih =>
    simp only [List.flatMap_cons, List.length_append, List.length_map, ih,
      List.length_cons]
    ring

theorem nodup_ids_of_pointwise {l : List NodeGene} {base : Nat}
    (h : ∀ k (hk : k < l.length), (l.get ⟨k, hk⟩).id = base + k + 1) :
    (l.map NodeGene.id).Nodup := by
  have heq : l.map NodeGene.id = (List.range l.length).map fun k => base + k + 1 := by
    refine List.ext_getElem (by simp) ?_
    intro n h1 h2
    rw [List.getElem_map, List.getElem_map, List.getElem_range]
    have hn : n < l.length := by simpa using h1
    have := h n hn
    rw [List.get_eq_getElem] at this
    exact this
  rw [heq]
  exact List.Nodup.map (fun i j hij => by omega) (List.nodup_range _)

theorem pairs_keys_nodup {l₁ l₂ : List NodeGene}
    (h₁ : (l₁.map NodeGene.id).Nodup) (h₂ : (l₂.map NodeGene.id).Nodup) :
    ((l₁.flatMap fun a => l₂.map fun b => (a, b)).map fun ab =>
      ((ab.1.id, ab.2.id) : Nat × Nat)).Nodup := by
  induction l₁ with
  | nil => simp
  | cons a l ih =>
    simp only [List.flatMap_cons, List.map_append, List.map_map]
    simp only [List.map_cons, List.nodup_cons] at h₁
    rw [List.nodup_append]
    refine ⟨?_, ih h₁.2, ?_⟩
    · have hcomp : (l₂.map ((fun ab : NodeGene × NodeGene => ((ab.1.id, ab.2.id) : Nat × Nat)) ∘
          fun b => (a, b))) = (l₂.map NodeGene.id).map fun i => ((a.id, i) : Nat × Nat) := by
        rw [List.map_map]
        rfl
      rw [hcomp]
      refine List.Nodup.map ?_ h₂
      intro i j hij
      exact (Prod.mk.injEq _ _ _ _).mp hij |>.2
    · intro k hk1 hk2
      obtain ⟨b, _, hbk⟩ := List.mem_map.mp hk1
      simp only [Function.comp_apply] at hbk
      rw [List.map_flatMap] at hk2
      obtain ⟨a', ha', hk2'⟩ := List.mem_flatMap.mp hk2
      rw [List.map_map] at hk2'
      obtain ⟨b', _, hbk'⟩ := List.mem_map.mp hk2'
      simp only [Function.comp_apply] at hbk'
      apply h₁.1
      have e1 : k.1 = a.id := by rw [← hbk]
      have e2 : k.1 = a'.id := by rw [← hbk']
      have e3 : a.id = a'.id := by omega
      rw [e3]
      exact List.mem_map.mpr ⟨a', ha', rfl⟩

theorem filter_present_length_le (conns : ConnList) (P : List (NodeGene × NodeGene))
    (hnd : (P.map fun ab => ((ab.1.id, ab.2.id) : Nat × Nat)).Nodup) :
    (P.filter fun ab => dictMem conns (ab.1.id, ab.2.id)).length ≤ conns.length := by
  have h1 : ((P.filter fun ab => dictMem conns (ab.1.id, ab.2.id)).map fun ab =>
      ((ab.1.id, ab.2.id) : Nat × Nat)).Nodup :=
    hnd.sublist ((List.filter_sublist P).map fun ab => ((ab.1.id, ab.2.id) : Nat × Nat))
  have h2 : ((P.filter fun ab => dictMem conns (ab.1.id, ab.2.id)).map fun ab =>
      ((ab.1.id, ab.2.id) : Nat × Nat)) ⊆ conns.map Prod.fst := by
    intro k hk
    obtain ⟨ab, hab, hk'⟩ := List.mem_map.mp hk
    have hmem := List.of_mem_filter hab
    rw [← hk']
    exact (dictMem_iff _ _).mp hmem
  have h4 : (P.filter fun ab => dictMem conns (ab.1.id, ab.2.id)).length =
      ((P.filter fun ab => dictMem conns (ab.1.id, ab.2.id)).map fun ab =>
        ((ab.1.id, ab.2.id) : Nat × Nat)).length := (List.length_map _ _).symm
  rw [h4]
  calc ((P.filter fun ab => dictMem conns (ab.1.id, ab.2.id)).map fun ab =>
        ((ab.1.id, ab.2.id) : Nat × Nat)).length
      ≤ (conns.map Prod.fst).length := (List.subperm_of_subset h1 h2).length_le
    _ = conns.length := List.length_map _ _

/-! ### Claim C1: endpoint range and entry-correspondence lemmas -/

theorem mem_node_spec {cfg : Config} {c : Chromosome} (h : DenseInv cfg c) {ng : NodeGene}
    (hm : ng ∈ c.node_genes) :
    1 ≤ ng.id ∧ ng.id ≤ c.node_genes.length ∧ ng.type = zoneType cfg (ng.id - 1) := by
  obtain ⟨k, hk, heq⟩ := List.getElem_of_mem hm
  have hid := h.ids k hk
  have hty := h.types k hk
  rw [List.get_eq_getElem] at hid hty
  rw [heq] at hid hty
  refine ⟨by omega, by omega, ?_⟩
  have hk1 : ng.id - 1 = k := by omega
  rw [hk1]
  exact hty

theorem mem_take_input {cfg : Config} {c : Chromosome} (h : DenseInv cfg c) {ng : NodeGene}
    (hm : ng ∈ c.node_genes.take cfg.input_nodes) :
    1 ≤ ng.id ∧ ng.id ≤ cfg.input_nodes ∧ ng.type = NodeType.INPUT := by
  obtain ⟨k, hk, hkI, heq⟩ := mem_take_node hm
  have hid := h.ids k hk
  have hty := h.types k hk
  rw [← heq] at hid hty
  refine ⟨by omega, by omega, ?_⟩
  rw [hty]
  exact zoneType_input hkI

theorem output_id_range {cfg : Config} {c : Chromosome} (h : DenseInv cfg c) {ng : NodeGene}
    (hm : ng ∈ c.node_genes) (hty : ng.type = NodeType.OUTPUT) :
    cfg.input_nodes + 1 ≤ ng.id ∧ ng.id ≤ cfg.input_nodes + cfg.output_nodes := by
  obtain ⟨h1, h2, h3⟩ := mem_node_spec h hm
  rw [h3] at hty
  have := zoneType_output_iff.mp hty
  omega

theorem input_id_le {cfg : Config} {c : Chromosome} (h : DenseInv cfg c) {ng : NodeGene}
    (hm : ng ∈ c.node_genes) (hty : ng.type = NodeType.INPUT) :
    1 ≤ ng.id ∧ ng.id ≤ cfg.input_nodes := by
  obtain ⟨h1, h2, h3⟩ := mem_node_spec h hm
  rw [h3] at hty
  have := zoneType_input_iff.mp hty
  omega

theorem mem_perturb_conns (cw : Nat → ℚ) :
    ∀ (l : ConnList) (j : Nat) (kv : (Nat × Nat) × ConnGene), kv ∈ perturb_conns cw l j →
      ∃ kv0 ∈ l, kv.1 = kv0.1 ∧ kv.2.innodeid = kv0.2.innodeid ∧
        kv.2.outnodeid = kv0.2.outnodeid := by
  intro l
  induction l with
  | nil => intro j kv h; exact absurd h (List.not_mem_nil _)
  | cons kv1 rest ih =>
    intro j kv h
    rw [perturb_conns] at h
    rcases List.mem_cons.mp h with rfl | h
    · exact ⟨kv1, List.mem_cons_self _ _, rfl, rfl, rfl⟩
    · obtain ⟨kv0, h0, he⟩ := ih (j + 1) kv h
      exact ⟨kv0, List.mem_cons_of_mem _ h0, he⟩

theorem mem_disable {l : ConnList} {K : Nat × Nat} {kv : (Nat × Nat) × ConnGene}
    (h : kv ∈ l.map fun kv0 =>
      if kv0.1 = K then (kv0.1, { kv0.2 with enabled := false }) else kv0) :
    ∃ kv0 ∈ l, kv.1 = kv0.1 ∧ kv.2.innodeid = kv0.2.innodeid ∧
      kv.2.outnodeid = kv0.2.outnodeid := by
  obtain ⟨kv0, h0, heq⟩ := List.mem_map.mp h
  subst heq
  by_cases hk : kv0.1 = K
  · rw [if_pos hk]
    exact ⟨kv0, h0, rfl, rfl, rfl⟩
  · rw [if_neg hk]
    exact ⟨kv0, h0, rfl, rfl, rfl⟩

theorem mem_delete_connection {c : Chromosome} {i : Nat} {kv : (Nat × Nat) × ConnGene}
    (h : kv ∈ (mutate_delete_connection c i).conn_genes) : kv ∈ c.conn_genes := by
  unfold mutate_delete_connection at h
  by_cases hlen : 1 < c.conn_genes.length
  · rw [if_pos hlen] at h
    exact (List.eraseIdx_sublist c.conn_genes (i % c.conn_genes.length)).subset h
  · rw [if_neg hlen] at h
    exact h

theorem connect_inputs_to_mem (w : Nat → ℚ) (outId : Nat) :
    ∀ (inputs : List NodeGene) (j : Nat) (conns : ConnList)
      (kv : (Nat × Nat) × ConnGene), kv ∈ (connect_inputs_to w inputs outId j conns).1 →
      kv ∈ conns ∨ ∃ inp ∈ inputs, ∃ wq : ℚ,
        kv = ((inp.id, outId), ⟨inp.id, outId, wq, true⟩) := by
  intro inputs
  induction inputs with
  | nil => intro j conns kv h; exact Or.inl h
  | cons inp rest ih =>
    intro j conns kv h
    simp only [connect_inputs_to] at h
    rcases ih (j + 1) _ kv h with h | ⟨inp0, h0, wq, he⟩
    · rcases mem_dictInsert h with he | h
      · exact Or.inr ⟨inp, List.mem_cons_self _ _, w j, he⟩
      · exact Or.inl h
    · exact Or.inr ⟨inp0, List.mem_cons_of_mem _ h0, wq, he⟩

theorem fully_go_mem (w : Nat → ℚ) (inputs : List NodeGene) :
    ∀ (ns : List NodeGene) (j : Nat) (conns : ConnList)
      (kv : (Nat × Nat) × ConnGene), kv ∈ fully_go w inputs ns j conns →
      kv ∈ conns ∨ ∃ inp ∈ inputs, ∃ ng ∈ ns, ng.type = NodeType.OUTPUT ∧ ∃ wq : ℚ,
        kv = ((inp.id, ng.id), ⟨inp.id, ng.id, wq, true⟩) := by
  intro ns
  induction ns with
  | nil => intro j conns kv h; exact Or.inl h
  | cons ng rest ih =>
    intro j conns kv h
    by_cases hng : ng.type = NodeType.OUTPUT
    · rw [fully_go, if_pos hng] at h
      rcases ih _ _ kv h with h | ⟨inp, hi, ng0, hn, hty, wq, he⟩
      · rcases connect_inputs_to_mem w ng.id inputs j conns kv h with h | ⟨inp, hi, wq, he⟩
        · exact Or.inl h
        · exact Or.inr ⟨inp, hi, ng, List.mem_cons_self _ _, hng, wq, he⟩
      · exact Or.inr ⟨inp, hi, ng0, List.mem_cons_of_mem _ hn, hty, wq, he⟩
    · rw [fully_go, if_neg hng] at h
      rcases ih _ _ kv h with h | ⟨inp, hi, ng0, hn, hty, wq, he⟩
      · exact Or.inl h
      · exact Or.inr ⟨inp, hi, ng0, List.mem_cons_of_mem _ hn, hty, wq, he⟩

theorem min_go_mem (cfg : Config) (cOr : Nat → Nat) (wOr : Nat → ℚ)
    (allNodes : List NodeGene) :
    ∀ (ns : List NodeGene) (j : Nat) (conns conns2 : ConnList),
      min_go cfg cOr wOr allNodes ns j conns = some conns2 →
      ∀ kv ∈ conns2, kv ∈ conns ∨
        ∃ inp ∈ allNodes.take cfg.input_nodes, ∃ ng ∈ ns, ng.type = NodeType.OUTPUT ∧
          ∃ wq : ℚ, kv = ((inp.id, ng.id), ⟨inp.id, ng.id, wq, true⟩) := by
  intro ns
  induction ns with
  | nil =>
    intro j conns conns2 hres kv hm
    obtain rfl : conns = conns2 := Option.some.inj hres
    exact Or.inl hm
  | cons ng rest ih =>
    intro j conns conns2 hres kv hm
    by_cases hng : ng.type = NodeType.OUTPUT
    · rw [min_go, if_pos hng] at hres
      cases hch : pyChoice (allNodes.take cfg.input_nodes) (cOr j) with
      | none => rw [hch] at hres; exact Option.noConfusion hres
      | some inp =>
        rw [hch] at hres
        rcases ih _ _ _ hres kv hm with h | ⟨inp0, hi, ng0, hn, hty, wq, he⟩
        · rcases mem_dictInsert h with he | h
          · refine Or.inr ⟨inp, ?_, ng, List.mem_cons_self _ _, hng, wOr j, he⟩
            have hch2 := hch
            unfold pyChoice at hch2
            exact List.get?_mem hch2
          · exact Or.inl h
        · exact Or.inr ⟨inp0, hi, ng0, List.mem_cons_of_mem _ hn, hty, wq, he⟩
    · rw [min_go, if_neg hng] at hres
      rcases ih _ _ _ hres kv hm with h | ⟨inp0, hi, ng0, hn, hty, wq, he⟩
      · exact Or.inl h
      · exact Or.inr ⟨inp0, hi, ng0, List.mem_cons_of_mem _ hn, hty, wq, he⟩

theorem ffInSlice_subset {nodes : List NodeGene} {nI nH : Nat} {a : NodeGene}
    (h : a ∈ ffInSlice nodes nI nH) : a ∈ nodes := by
  unfold ffInSlice at h
  rcases List.mem_append.mp h with h | h
  · exact List.mem_of_mem_take h
  · by_cases hH : nH = 0
    · rwa [if_pos hH] at h
    · rw [if_neg hH] at h
      exact List.mem_of_mem_drop h

theorem find?_id_pointwise :
    ∀ (l : List NodeGene) (base x : Nat),
      (∀ k (hk : k < l.length), (l.get ⟨k, hk⟩).id = base + k + 1) →
      base + 1 ≤ x → x ≤ base + l.length →
      (l.find? fun ng => ng.id == x) = l.get? (x - base - 1) := by
  intro l
  induction l with
  | nil => intro base x _ _ _; rfl
  | cons nd rest ih =>
    intro base x hpt h1 h2
    have hid : nd.id = base + 1 := by
      have := hpt 0 (by simp)
      simpa using this
    by_cases hx : x = base + 1
    · have hbeq : (nd.id == x) = true := by
        rw [hid, hx]
        simp
      rw [@List.find?_cons_of_pos _ (fun ng => ng.id == x) nd rest hbeq]
      have hix : x - base - 1 = 0 := by omega
      rw [hix]
      rfl
    · have hbeq : ¬((nd.id == x) = true) := by
        rw [hid]
        simp
        omega
      rw [@List.find?_cons_of_neg _ (fun ng => ng.id == x) nd rest hbeq]
      have hpt2 : ∀ k (hk : k < rest.length), (rest.get ⟨k, hk⟩).id = base + 1 + k + 1 := by
        intro k hk
        have h3 := hpt (k + 1) (by simpa using Nat.succ_lt_succ hk)
        have h4 : (List.cons nd rest).get ⟨k + 1, by simpa using Nat.succ_lt_succ hk⟩ =
            rest.get ⟨k, hk⟩ := rfl
        rw [h4] at h3
        omega
      have hrec := ih (base + 1) x hpt2 (by omega) (by simp at h2 ⊢; omega)
      rw [hrec]
      have hix : x - base - 1 = (x - (base + 1) - 1) + 1 := by omega
      rw [hix]
      rfl

theorem findNode_dense {cfg : Config} {c : Chromosome} (h : DenseInv cfg c) {x : Nat}
    (h1 : 1 ≤ x) (h2 : x ≤ c.node_genes.length) :
    ∃ nd, findNode c x = some nd ∧ nd.id = x ∧ nd.type = zoneType cfg (x - 1) := by
  obtain ⟨nd, hg, hid, hty⟩ := denseInv_node_at h h1 h2
  refine ⟨nd, ?_, hid, hty⟩
  unfold findNode
  rw [find?_id_pointwise c.node_genes 0 x ?_ (by omega) (by omega)]
  · show c.node_genes.get? (x - 0 - 1) = some nd
    have hix : x - 0 - 1 = x - 1 := by omega
    rw [hix]
    exact hg
  · intro k hk
    have := h.ids k hk
    omega

theorem countFreeP_add (conns : ConnList) (P : List (NodeGene × NodeGene)) :
    (P.filter fun ab => dictMem conns (ab.1.id, ab.2.id)).length + countFreeP conns P =
      P.length := by
  unfold countFreeP
  induction P with
  | nil => rfl
  | cons ab rest ih =>
    by_cases hm : dictMem conns (ab.1.id, ab.2.id) = true <;>
      simp [List.filter_cons, hm] <;> omega

/-! ### Claim C1: invariant preservation for the simple branches -/

theorem ffinv_transport {cfg : Config} {F F2 : FFChromosome}
    (h : FFInv cfg F)
    (hmap : F2.base.node_genes.map idType = F.base.node_genes.map idType)
    (hni : F2.base.num_inputs = F.base.num_inputs)
    (hno : F2.base.num_outputs = F.base.num_outputs)
    (hord : F2.node_order = F.node_order)
    (hok : ConnOK F2.base)
    (hsub : ∀ kv ∈ F2.base.conn_genes, ∃ kv0 ∈ F.base.conn_genes,
      kv.2.innodeid = kv0.2.innodeid ∧ kv.2.outnodeid = kv0.2.outnodeid) :
    FFInv cfg F2 := by
  have hlen := idType_map_len hmap
  refine ⟨denseInv_of_idType hmap hni h.dense, hno.trans h.num_out, hok,
    ?_, ?_, ?_, ?_, ?_, ?_, ?_⟩
  · rw [hord, hlen]
    exact h.order_len
  · rw [hord]
    exact h.order_nodup
  · rw [hord, hlen]
    exact h.order_mem
  · rw [hord, hlen]
    exact h.order_complete
  · intro kv hm
    obtain ⟨kv0, h0, hi, ho2⟩ := hsub kv hm
    rw [hi, hlen]
    exact h.conn_src kv0 h0
  · intro kv hm
    obtain ⟨kv0, h0, hi, ho2⟩ := hsub kv hm
    rw [ho2, hlen]
    exact h.conn_tgt kv0 h0
  · intro kv hm
    obtain ⟨kv0, h0, hi, ho2⟩ := hsub kv hm
    rw [hi, ho2, hord]
    exact h.conn_ff kv0 h0

theorem ffinv_perturb {cfg : Config} {F : FFChromosome} (cw nb nr : Nat → ℚ)
    (h : FFInv cfg F) :
    FFInv cfg { F with base := mutate_perturb F.base cw nb nr } := by
  refine ffinv_transport h (mutate_perturb_idType F.base cw nb nr) rfl rfl rfl
    (connOK_perturb cw nb nr h.connok) ?_
  intro kv hm
  obtain ⟨kv0, h0, _, hi, ho⟩ := mem_perturb_conns cw F.base.conn_genes 0 kv hm
  exact ⟨kv0, h0, hi, ho⟩

theorem ffinv_delete_connection {cfg : Config} {F : FFChromosome} (i : Nat)
    (h : FFInv cfg F) :
    FFInv cfg { F with base := mutate_delete_connection F.base i } := by
  obtain ⟨hn, hni, hno⟩ := mutate_delete_connection_frame F.base i
  refine ffinv_transport h (by rw [hn]) hni hno rfl
    (connOK_delete_connection i h.connok) ?_
  intro kv hm
  exact ⟨kv, mem_delete_connection hm, rfl, rfl⟩

/-! ### Claim C1: add-connection preservation -/

theorem isConnFFb_cases {order : List Nat} {a b : NodeGene}
    (h : isConnFFb order a b = some true) :
    a.type = NodeType.INPUT ∨ b.type = NodeType.OUTPUT ∨
      ∃ i j, idxOf? order a.id = some i ∧ idxOf? order b.id = some j ∧ i < j := by
  unfold isConnFFb at h
  by_cases h1 : a.type = NodeType.INPUT
  · exact Or.inl h1
  · rw [if_neg h1] at h
    by_cases h2 : b.type = NodeType.OUTPUT
    · exact Or.inr (Or.inl h2)
    · rw [if_neg h2] at h
      cases hi : idxOf? order a.id with
      | none =>
        rw [hi] at h
        cases hj : idxOf? order b.id <;> rw [hj] at h <;> exact Option.noConfusion h
      | some i =>
        rw [hi] at h
        cases hj : idxOf? order b.id with
        | none => rw [hj] at h; exact Option.noConfusion h
        | some j =>
          rw [hj] at h
          refine Or.inr (Or.inr ⟨i, j, rfl, rfl, ?_⟩)
          have := Option.some.inj h
          exact of_decide_eq_true this

theorem ff_remaining_le_free {cfg : Config} {F : FFChromosome} (h : FFInv cfg F)
    (hH : F.node_order.length = 0) :
    ((F.node_order.length : Int) +
        ((F.base.node_genes.length : Int) - (F.base.num_inputs : Int) -
          (F.node_order.length : Int))) *
        ((F.base.num_inputs : Int) + (F.node_order.length : Int)) -
      (sumRange (F.node_order.length + 1) : Int) - (F.base.conn_genes.length : Int) ≤
    (countFreeP F.base.conn_genes
      ((F.base.node_genes.take F.base.num_inputs).flatMap fun a =>
        (F.base.node_genes.drop F.base.num_inputs).map fun b => (a, b)) : Int) := by
  have hIeq := h.dense.num_in
  have hol := h.order_len
  have hlen2 : F.base.node_genes.length = cfg.input_nodes + cfg.output_nodes := by omega
  have hnd1 : ((F.base.node_genes.take F.base.num_inputs).map NodeGene.id).Nodup := by
    refine @nodup_ids_of_pointwise _ 0 ?_
    intro k hk
    have hk2 : k < F.base.node_genes.length := by
      rw [List.length_take] at hk
      omega
    have hid := h.dense.ids k hk2
    rw [List.get_eq_getElem] at hid ⊢
    rw [List.getElem_take, Nat.zero_add]
    exact hid
  have hnd2 : ((F.base.node_genes.drop F.base.num_inputs).map NodeGene.id).Nodup := by
    refine @nodup_ids_of_pointwise _ F.base.num_inputs ?_
    intro k hk
    have hk2 : F.base.num_inputs + k < F.base.node_genes.length := by
      rw [List.length_drop] at hk
      omega
    have hid := h.dense.ids (F.base.num_inputs + k) hk2
    rw [List.get_eq_getElem] at hid ⊢
    rw [List.getElem_drop]
    exact hid
  have hpres := filter_present_length_le F.base.conn_genes
    ((F.base.node_genes.take F.base.num_inputs).flatMap fun a =>
      (F.base.node_genes.drop F.base.num_inputs).map fun b => (a, b))
    (pairs_keys_nodup hnd1 hnd2)
  have hsum := countFreeP_add F.base.conn_genes
    ((F.base.node_genes.take F.base.num_inputs).flatMap fun a =>
      (F.base.node_genes.drop F.base.num_inputs).map fun b => (a, b))
  have hPlen : ((F.base.node_genes.take F.base.num_inputs).flatMap fun a =>
      (F.base.node_genes.drop F.base.num_inputs).map fun b => (a, b)).length =
      cfg.input_nodes * cfg.output_nodes := by
    rw [flatMap_pairs_length, List.length_take, List.length_drop, hIeq, hlen2]
    rw [Nat.min_eq_left (by omega)]
    congr 1
    omega
  have hprod : ((F.node_order.length : Int) +
        ((F.base.node_genes.length : Int) - (F.base.num_inputs : Int) -
          (F.node_order.length : Int))) *
        ((F.base.num_inputs : Int) + (F.node_order.length : Int)) =
      ((cfg.input_nodes * cfg.output_nodes : Nat) : Int) := by
    rw [hH, hIeq, hlen2]
    push_cast
    ring
  have hs0 : sumRange (F.node_order.length + 1) = 0 := by
    rw [hH]
    rfl
  rw [hprod, hs0]
  omega

theorem ffsel_src {cfg : Config} {F : FFChromosome} (h : FFInv cfg F) {n : Nat}
    {ab : NodeGene × NodeGene}
    (hn : (n : Int) <
      ((F.node_order.length : Int) +
          ((F.base.node_genes.length : Int) - (F.base.num_inputs : Int) -
            (F.node_order.length : Int))) *
          ((F.base.num_inputs : Int) + (F.node_order.length : Int)) -
        (sumRange (F.node_order.length + 1) : Int) - (F.base.conn_genes.length : Int))
    (hscan : scanFF F.base.conn_genes F.node_order
      ((ffInSlice F.base.node_genes F.base.num_inputs F.node_order.length).flatMap fun a =>
        (F.base.node_genes.drop F.base.num_inputs).map fun b => (a, b)) n =
      some (some ab)) :
    (1 ≤ ab.1.id ∧ ab.1.id ≤ cfg.input_nodes) ∨
      (cfg.input_nodes + cfg.output_nodes + 1 ≤ ab.1.id ∧
        ab.1.id ≤ F.base.node_genes.length) := by
  have hIeq := h.dense.num_in
  by_cases hH : F.node_order.length = 0
  · have hle := ff_remaining_le_free h hH
    have hcnt : n < countFreeP F.base.conn_genes
        ((F.base.node_genes.take F.base.num_inputs).flatMap fun a =>
          (F.base.node_genes.drop F.base.num_inputs).map fun b => (a, b)) := by
      have := lt_of_lt_of_le hn hle
      exact_mod_cast this
    have hsl : ffInSlice F.base.node_genes F.base.num_inputs F.node_order.length =
        F.base.node_genes.take F.base.num_inputs ++ F.base.node_genes := by
      rw [hH, ffInSlice, if_pos rfl]
    rw [hsl, List.flatMap_append] at hscan
    have hypP : ∀ ab0 ∈ ((F.base.node_genes.take F.base.num_inputs).flatMap fun a =>
        (F.base.node_genes.drop F.base.num_inputs).map fun b => (a, b)),
        dictMem F.base.conn_genes (ab0.1.id, ab0.2.id) = false →
        isConnFFb F.node_order ab0.1 ab0.2 = some true := by
      intro ab0 hab0 _
      obtain ⟨a0, ha0, hm0⟩ := List.mem_flatMap.mp hab0
      obtain ⟨b0, hb0, heq0⟩ := List.mem_map.mp hm0
      rw [hIeq] at ha0
      have hty := (mem_take_input h.dense ha0).2.2
      rw [← heq0]
      show isConnFFb F.node_order a0 b0 = some true
      rw [isConnFFb, if_pos hty]
    obtain ⟨ab2, hab2, hscan2⟩ := scanFF_first_block
      ((F.base.node_genes.take F.base.num_inputs).flatMap fun a =>
        (F.base.node_genes.drop F.base.num_inputs).map fun b => (a, b))
      (F.base.node_genes.flatMap fun a =>
        (F.base.node_genes.drop F.base.num_inputs).map fun b => (a, b))
      n hypP hcnt
    have he := hscan2.symm.trans hscan
    obtain rfl : ab2 = ab := Option.some.inj (Option.some.inj he)
    obtain ⟨a2, ha2, hm2⟩ := List.mem_flatMap.mp hab2
    obtain ⟨b2, hb2, habeq⟩ := List.mem_map.mp hm2
    rw [hIeq] at ha2
    have hr := mem_take_input h.dense ha2
    rw [← habeq]
    exact Or.inl ⟨hr.1, hr.2.1⟩
  · obtain ⟨habm, hfree, hffb⟩ := scanFF_sound _ _ _ hscan
    obtain ⟨a2, ha2, hm2⟩ := List.mem_flatMap.mp habm
    obtain ⟨b2, hb2, habeq⟩ := List.mem_map.mp hm2
    rw [← habeq]
    dsimp only
    unfold ffInSlice at ha2
    rcases List.mem_append.mp ha2 with ht | hd
    · rw [hIeq] at ht
      have hr := mem_take_input h.dense ht
      exact Or.inl ⟨hr.1, hr.2.1⟩
    · rw [if_neg hH] at hd
      have hrng : F.base.node_genes.length - F.node_order.length =
          cfg.input_nodes + cfg.output_nodes := by
        have := h.order_len
        omega
      rw [hrng] at hd
      obtain ⟨k, hk, hkge, heqk⟩ := mem_drop_node hd
      have hid := h.dense.ids k hk
      rw [← heqk] at hid
      exact Or.inr ⟨by omega, by omega⟩

theorem ffinv_add_connection {cfg : Config} {F F2 : FFChromosome} {nIdx : Nat} {w : ℚ}
    (h : FFInv cfg F) (hres : ff_mutate_add_connection F nIdx w = some F2) :
    FFInv cfg F2 := by
  have hIeq := h.dense.num_in
  have hge := h.dense.len_ge
  unfold ff_mutate_add_connection at hres
  dsimp only at hres
  split at hres
  case isFalse hrem =>
    obtain rfl : F = F2 := Option.some.inj hres
    exact h
  case isTrue hrem =>
    have hkey : ∀ x : Int, 0 < x → ∀ m : Nat, ((m % x.toNat : Nat) : Int) < x := by
      intro x hx m
      have h1 : m % x.toNat < x.toNat := Nat.mod_lt _ (by omega)
      omega
    have hnInt := hkey _ hrem nIdx
    split at hres
    next hscan => exact Option.noConfusion hres
    next hscan =>
      obtain rfl : F = F2 := Option.some.inj hres
      exact h
    next ab hscan =>
      obtain rfl : _ = F2 := Option.some.inj hres
      have hsrcd := ffsel_src h hnInt hscan
      obtain ⟨habm, hfree, hffb⟩ := scanFF_sound _ _ _ hscan
      obtain ⟨a2, ha2, hm2⟩ := List.mem_flatMap.mp habm
      obtain ⟨b2, hb2, habeq⟩ := List.mem_map.mp hm2
      have haN : ab.1 ∈ F.base.node_genes := by
        rw [← habeq]
        exact ffInSlice_subset ha2
      have hbN : ab.2 ∈ F.base.node_genes := by
        rw [← habeq]
        exact List.mem_of_mem_drop hb2
      have htgt : cfg.input_nodes + 1 ≤ ab.2.id ∧ ab.2.id ≤ F.base.node_genes.length := by
        obtain ⟨k, hk, hkge, heqk⟩ := mem_drop_node hb2
        have hid := h.dense.ids k hk
        rw [← heqk] at hid
        rw [← habeq]
        dsimp only
        rw [hIeq] at hkge
        omega
      have hok := connListOK_dictInsert (⟨ab.1.id, ab.2.id, w, true⟩ : ConnGene)
        ⟨h.connok.1, h.connok.2⟩
      refine ⟨@denseInv_copy cfg F.base _ rfl rfl h.dense, h.num_out, ⟨hok.1, hok.2⟩,
        h.order_len, h.order_nodup, h.order_mem, h.order_complete, ?_, ?_, ?_⟩
      · intro kv hkv
        rcases mem_dictInsert hkv with heq | hold
        · subst heq
          dsimp only
          rcases hsrcd with ⟨u1, u2⟩ | ⟨u1, u2⟩ <;> exact ⟨by omega, by omega, by omega⟩
        · exact h.conn_src kv hold
      · intro kv hkv
        rcases mem_dictInsert hkv with heq | hold
        · subst heq
          dsimp only
          omega
        · exact h.conn_tgt kv hold
      · intro kv hkv
        rcases mem_dictInsert hkv with heq | hold
        · subst heq
          dsimp only
          rcases isConnFFb_cases hffb with hA | hB | ⟨i, j, hi, hj, hij⟩
          · exact Or.inl (input_id_le h.dense haN hA).2
          · exact Or.inr (Or.inl (output_id_range h.dense hbN hB))
          · exact Or.inr (Or.inr ⟨i, j, hi, hj, hij⟩)
        · exact h.conn_ff kv hold

/-! ### Claim C1: add-node preservation -/

theorem add_node_core_spec {cfg : Config} {c : Chromosome} {choiceIdx : Nat}
    {out : Chromosome × NodeGene × ConnGene}
    (hres : mutate_add_node_core cfg c choiceIdx = some out) :
    (∃ kv0 ∈ c.conn_genes, kv0.2 = out.2.2) ∧
    out.2.1.id = c.node_genes.length + 1 ∧
    out.1.node_genes = c.node_genes ++ [out.2.1] ∧
    out.1.num_inputs = c.num_inputs ∧
    out.1.num_outputs = c.num_outputs ∧
    ∀ kv ∈ out.1.conn_genes,
      kv = ((out.2.2.innodeid, out.2.1.id),
        (⟨out.2.2.innodeid, out.2.1.id, 1, true⟩ : ConnGene)) ∨
      kv = ((out.2.1.id, out.2.2.outnodeid),
        (⟨out.2.1.id, out.2.2.outnodeid, out.2.2.weight, true⟩ : ConnGene)) ∨
      ∃ kv0 ∈ c.conn_genes, kv.1 = kv0.1 ∧ kv.2.innodeid = kv0.2.innodeid ∧
        kv.2.outnodeid = kv0.2.outnodeid := by
  unfold mutate_add_node_core at hres
  cases hget : c.conn_genes.get? (choiceIdx % c.conn_genes.length) with
  | none => rw [hget] at hres; exact Option.noConfusion hres
  | some kv =>
    rw [hget] at hres
    dsimp only at hres
    obtain rfl : _ = out := Option.some.inj hres
    refine ⟨⟨kv, List.get?_mem hget, rfl⟩, rfl, rfl, rfl, rfl, ?_⟩
    intro kv2 hkv2
    rcases mem_dictInsert hkv2 with he | hkv2
    · right
      left
      rw [he]
      rfl
    · rcases mem_dictInsert hkv2 with he | hkv2
      · left
        rw [he]
        rfl
      · right
        right
        exact mem_disable hkv2

theorem ffinv_insert_aux {cfg : Config} {F : FFChromosome} {b : Chromosome} {ng : NodeGene}
    {sc : ConnGene} {p : Nat}
    (h : FFInv cfg F)
    (hksc : ∃ kv0 ∈ F.base.conn_genes, kv0.2 = sc)
    (hngid : ng.id = F.base.node_genes.length + 1)
    (hbn : b.node_genes = F.base.node_genes ++ [ng])
    (hbo : b.num_outputs = F.base.num_outputs)
    (hdense : DenseInv cfg b)
    (hok : ConnOK b)
    (hmem : ∀ kv ∈ b.conn_genes,
      kv = ((sc.innodeid, ng.id), (⟨sc.innodeid, ng.id, 1, true⟩ : ConnGene)) ∨
      kv = ((ng.id, sc.outnodeid), (⟨ng.id, sc.outnodeid, sc.weight, true⟩ : ConnGene)) ∨
      ∃ kv0 ∈ F.base.conn_genes, kv.1 = kv0.1 ∧ kv.2.innodeid = kv0.2.innodeid ∧
        kv.2.outnodeid = kv0.2.outnodeid)
    (hp : p ≤ F.node_order.length)
    (hmini : sc.innodeid ≤ cfg.input_nodes ∨
      ∃ i0, idxOf? F.node_order sc.innodeid = some i0 ∧ i0 < p)
    (hmaxi : (cfg.input_nodes + 1 ≤ sc.outnodeid ∧
        sc.outnodeid ≤ cfg.input_nodes + cfg.output_nodes) ∨
      ∃ j0, idxOf? F.node_order sc.outnodeid = some j0 ∧ p ≤ j0) :
    FFInv cfg { base := b, node_order := insertAt F.node_order p ng.id } := by
  have hge := h.dense.len_ge
  have hol := h.order_len
  have hngnot : ng.id ∉ F.node_order := by
    intro hc
    have := h.order_mem _ hc
    omega
  have hlenb : b.node_genes.length = F.base.node_genes.length + 1 := by
    rw [hbn]
    simp
  obtain ⟨kv0, hkv0, hsc⟩ := hksc
  have hs0 := h.conn_src kv0 hkv0
  have ht0 := h.conn_tgt kv0 hkv0
  rw [hsc] at hs0 ht0
  refine ⟨hdense, hbo.trans h.num_out, hok, ?_, ?_, ?_, ?_, ?_, ?_, ?_⟩
  · dsimp only
    rw [insertAt_length ng.id hp, hlenb]
    omega
  · exact insertAt_nodup hngnot h.order_nodup
  · intro x hx
    dsimp only at hx ⊢
    rcases mem_insertAt.mp hx with rfl | hx
    · rw [hlenb]
      omega
    · have := h.order_mem x hx
      rw [hlenb]
      omega
  · intro x hx1 hx2
    dsimp only at hx2 ⊢
    rw [hlenb] at hx2
    by_cases hxl : x ≤ F.base.node_genes.length
    · exact mem_insertAt.mpr (Or.inr (h.order_complete x hx1 hxl))
    · have hxe : x = ng.id := by omega
      exact mem_insertAt.mpr (Or.inl hxe)
  · intro kv hkv
    dsimp only at hkv ⊢
    rcases hmem kv hkv with rfl | hrest
    · dsimp only
      rw [hlenb]
      omega
    · rcases hrest with rfl | ⟨kv1, hkv1, _, hin, hout⟩
      · dsimp only
        rw [hlenb, hngid]
        omega
      · have hs1 := h.conn_src kv1 hkv1
        rw [hin, hlenb]
        omega
  · intro kv hkv
    dsimp only at hkv ⊢
    rcases hmem kv hkv with rfl | hrest
    · dsimp only
      rw [hlenb, hngid]
      omega
    · rcases hrest with rfl | ⟨kv1, hkv1, _, hin, hout⟩
      · dsimp only
        rw [hlenb]
        omega
      · have ht1 := h.conn_tgt kv1 hkv1
        rw [hout, hlenb]
        omega
  · intro kv hkv
    dsimp only at hkv ⊢
    rcases hmem kv hkv with rfl | hrest
    · dsimp only
      rcases hmini with hle | ⟨i0, hi0, hi0p⟩
      · exact Or.inl hle
      · right
        right
        have hne1 : sc.innodeid ≠ ng.id := by
          have := h.order_mem _ (idxOf?_mem hi0)
          omega
        refine ⟨i0, p, ?_, idxOf?_insertAt_self hngnot p hp, hi0p⟩
        rw [idxOf?_insertAt_old hne1 hi0 p, if_pos hi0p]
    · rcases hrest with rfl | ⟨kv1, hkv1, _, hin, hout⟩
      · dsimp only
        rcases hmaxi with ⟨hl, hr⟩ | ⟨j0, hj0, hpj⟩
        · exact Or.inr (Or.inl ⟨hl, hr⟩)
        · right
          right
          have hne2 : sc.outnodeid ≠ ng.id := by
            have := h.order_mem _ (idxOf?_mem hj0)
            omega
          refine ⟨p, j0 + 1, idxOf?_insertAt_self hngnot p hp, ?_, by omega⟩
          rw [idxOf?_insertAt_old hne2 hj0 p, if_neg (by omega)]
      · have hff1 := h.conn_ff kv1 hkv1
        rw [hin, hout]
        rcases hff1 with h1 | h2 | ⟨i, j, hi, hj, hij⟩
        · exact Or.inl h1
        · exact Or.inr (Or.inl h2)
        · right
          right
          have hnei : kv1.2.innodeid ≠ ng.id := by
            have := h.order_mem _ (idxOf?_mem hi)
            omega
          have hnej : kv1.2.outnodeid ≠ ng.id := by
            have := h.order_mem _ (idxOf?_mem hj)
            omega
          refine ⟨if i < p then i else i + 1, if j < p then j else j + 1,
            idxOf?_insertAt_old hnei hi p, idxOf?_insertAt_old hnej hj p, ?_⟩
          split_ifs <;> omega

theorem ffinv_add_node {cfg : Config} {F F2 : FFChromosome} {choiceIdx insertIdx : Nat}
    (h : FFInv cfg F) (hres : ff_mutate_add_node cfg F choiceIdx insertIdx = some F2) :
    FFInv cfg F2 := by
  unfold ff_mutate_add_node at hres
  cases hcore : mutate_add_node_core cfg F.base choiceIdx with
  | none => rw [hcore] at hres; exact Option.noConfusion hres
  | some out =>
    obtain ⟨b, ng, sc⟩ := out
    rw [hcore] at hres
    dsimp only at hres
    have hspec := add_node_core_spec hcore
    dsimp only at hspec
    obtain ⟨⟨kv0, hkv0, hsc⟩, hngid, hbn, _, hbo, hmem⟩ := hspec
    have hdense : DenseInv cfg b := denseInv_add_node h.dense hcore
    have hok : ConnOK b := connOK_add_node h.connok hcore
    have hIeq := h.dense.num_in
    have hge := h.dense.len_ge
    have hol := h.order_len
    have hs0 := h.conn_src kv0 hkv0
    have ht0 := h.conn_tgt kv0 hkv0
    rw [hsc] at hs0 ht0
    have hlenb : b.node_genes.length = F.base.node_genes.length + 1 := by
      rw [hbn]
      simp
    have hout1 : 1 ≤ sc.outnodeid := by omega
    cases hg1 : b.node_genes.get? (sc.innodeid - 1) with
    | none =>
      obtain ⟨nd1x, hnd1g, _, _⟩ := denseInv_node_at hdense hs0.1 (by omega)
      rw [hg1] at hnd1g
      exact Option.noConfusion hnd1g
    | some nd1 =>
      obtain ⟨nd1x, hnd1g, hnd1id, hnd1ty⟩ := denseInv_node_at hdense hs0.1 (by omega)
      rw [hg1] at hnd1g
      have hnd1e := Option.some.inj hnd1g
      subst hnd1e
      cases hg2 : b.node_genes.get? (sc.outnodeid - 1) with
      | none =>
        obtain ⟨nd2x, hnd2g, _, _⟩ := denseInv_node_at hdense hout1 (by omega)
        rw [hg2] at hnd2g
        exact Option.noConfusion hnd2g
      | some nd2 =>
        obtain ⟨nd2x, hnd2g, hnd2id, hnd2ty⟩ := denseInv_node_at hdense hout1 (by omega)
        rw [hg2] at hnd2g
        have hnd2e := Option.some.inj hnd2g
        subst hnd2e
        rw [hg1, hg2] at hres
        dsimp only at hres
        by_cases hty1 : nd1.type = NodeType.HIDDEN
        · rw [if_pos hty1] at hres
          have hinn_hidden : cfg.input_nodes + cfg.output_nodes + 1 ≤ sc.innodeid := by
            rw [hnd1ty] at hty1
            have := zoneType_hidden_iff.mp hty1
            omega
          cases hio1 : idxOf? F.node_order sc.innodeid with
          | none =>
            have hmemo : sc.innodeid ∈ F.node_order :=
              h.order_complete _ (by omega) (by omega)
            obtain ⟨i0, hi0⟩ := mem_idxOf? hmemo
            rw [hio1] at hi0
            exact Option.noConfusion hi0
          | some i0 =>
            rw [hio1] at hres
            simp only [Option.map_some'] at hres
            by_cases hty2 : nd2.type = NodeType.HIDDEN
            · rw [if_pos hty2] at hres
              have hot_hidden : cfg.input_nodes + cfg.output_nodes + 1 ≤ sc.outnodeid := by
                rw [hnd2ty] at hty2
                have := zoneType_hidden_iff.mp hty2
                omega
              cases hio2 : idxOf? F.node_order sc.outnodeid with
              | none =>
                have hmemo : sc.outnodeid ∈ F.node_order :=
                  h.order_complete _ (by omega) (by omega)
                obtain ⟨j0, hj0⟩ := mem_idxOf? hmemo
                rw [hio2] at hj0
                exact Option.noConfusion hj0
              | some j0 =>
                rw [hio2] at hres
                dsimp only at hres
                have hj0H := idxOf?_lt_length hio2
                by_cases hle : i0 + 1 ≤ j0
                · rw [if_pos hle] at hres
                  obtain rfl : _ = F2 := Option.some.inj hres
                  have hmod : insertIdx % (j0 - (i0 + 1) + 1) < j0 - (i0 + 1) + 1 :=
                    Nat.mod_lt _ (by omega)
                  refine ffinv_insert_aux h ⟨kv0, hkv0, hsc⟩ hngid hbn hbo hdense hok hmem
                    (by omega) ?_ ?_
                  · exact Or.inr ⟨i0, hio1, by omega⟩
                  · exact Or.inr ⟨j0, hio2, by omega⟩
                · rw [if_neg hle] at hres
                  exact Option.noConfusion hres
            · rw [if_neg hty2] at hres
              dsimp only at hres
              have hout_le : sc.outnodeid ≤ cfg.input_nodes + cfg.output_nodes := by
                by_cases hc : sc.outnodeid ≤ cfg.input_nodes + cfg.output_nodes
                · exact hc
                · exfalso
                  apply hty2
                  rw [hnd2ty]
                  exact zoneType_hidden (by omega)
              by_cases hle : i0 + 1 ≤ F.node_order.length
              · rw [if_pos hle] at hres
                obtain rfl : _ = F2 := Option.some.inj hres
                have hmod : insertIdx % (F.node_order.length - (i0 + 1) + 1) <
                    F.node_order.length - (i0 + 1) + 1 := Nat.mod_lt _ (by omega)
                refine ffinv_insert_aux h ⟨kv0, hkv0, hsc⟩ hngid hbn hbo hdense hok hmem
                  (by omega) ?_ (Or.inl ⟨ht0.1, hout_le⟩)
                exact Or.inr ⟨i0, hio1, by omega⟩
              · rw [if_neg hle] at hres
                exact Option.noConfusion hres
        · rw [if_neg hty1] at hres
          have hinn_le : sc.innodeid ≤ cfg.input_nodes := by
            rcases hs0.2.2 with hc | hc
            · exact hc
            · exfalso
              apply hty1
              rw [hnd1ty]
              exact zoneType_hidden (by omega)
          by_cases hty2 : nd2.type = NodeType.HIDDEN
          · rw [if_pos hty2] at hres
            have hot_hidden : cfg.input_nodes + cfg.output_nodes + 1 ≤ sc.outnodeid := by
              rw [hnd2ty] at hty2
              have := zoneType_hidden_iff.mp hty2
              omega
            cases hio2 : idxOf? F.node_order sc.outnodeid with
            | none =>
              have hmemo : sc.outnodeid ∈ F.node_order :=
                h.order_complete _ (by omega) (by omega)
              obtain ⟨j0, hj0⟩ := mem_idxOf? hmemo
              rw [hio2] at hj0
              exact Option.noConfusion hj0
            | some j0 =>
              rw [hio2] at hres
              dsimp only at hres
              have hj0H := idxOf?_lt_length hio2
              rw [if_pos (Nat.zero_le _)] at hres
              obtain rfl : _ = F2 := Option.some.inj hres
              have hmod : insertIdx % (j0 - 0 + 1) < j0 - 0 + 1 := Nat.mod_lt _ (by omega)
              refine ffinv_insert_aux h ⟨kv0, hkv0, hsc⟩ hngid hbn hbo hdense hok hmem
                (by omega) (Or.inl hinn_le) ?_
              exact Or.inr ⟨j0, hio2, by omega⟩
          · rw [if_neg hty2] at hres
            dsimp only at hres
            have hout_le : sc.outnodeid ≤ cfg.input_nodes + cfg.output_nodes := by
              by_cases hc : sc.outnodeid ≤ cfg.input_nodes + cfg.output_nodes
              · exact hc
              · exfalso
                apply hty2
                rw [hnd2ty]
                exact zoneType_hidden (by omega)
            rw [if_pos (Nat.zero_le _)] at hres
            obtain rfl : _ = F2 := Option.some.inj hres
            have hmod : insertIdx % (F.node_order.length - 0 + 1) <
                F.node_order.length - 0 + 1 := Nat.mod_lt _ (by omega)
            exact ffinv_insert_aux h ⟨kv0, hkv0, hsc⟩ hngid hbn hbo hdense hok hmem
              (by omega) (Or.inl hinn_le) (Or.inl ⟨ht0.1, hout_le⟩)

/-! ### Claim C1: the invariant holds at the factories and along `mutate` -/

theorem ffinv_unconnected (cfg : Config) : FFInv cfg (ff_create_unconnected cfg) := by
  have hl : (ff_create_unconnected cfg).base.node_genes.length =
      cfg.input_nodes + cfg.output_nodes := create_unconnected_len cfg
  refine ⟨denseInv_create_unconnected cfg, rfl,
    ⟨List.nodup_nil, fun _ hkv => absurd hkv (List.not_mem_nil _)⟩, ?_, List.nodup_nil,
    ?_, ?_, ?_, ?_, ?_⟩
  · show ([] : List Nat).length + (cfg.input_nodes + cfg.output_nodes) =
      (ff_create_unconnected cfg).base.node_genes.length
    rw [hl]
    simp
  · intro x hx
    exact absurd hx (List.not_mem_nil _)
  · intro x hx1 hx2
    rw [hl] at hx2
    exact absurd hx1 (by omega)
  · intro kv hkv
    exact absurd hkv (List.not_mem_nil _)
  · intro kv hkv
    exact absurd hkv (List.not_mem_nil _)
  · intro kv hkv
    exact absurd hkv (List.not_mem_nil _)

theorem ffinv_fully (cfg : Config) (w : Nat → ℚ) :
    FFInv cfg (ff_create_fully_connected cfg w) := by
  have hb : (ff_create_fully_connected cfg w).base.node_genes.length =
      cfg.input_nodes + cfg.output_nodes := create_unconnected_len cfg
  have hdense : DenseInv cfg (create_fully_connected cfg w) :=
    @denseInv_copy cfg (create_unconnected cfg) _ rfl rfl (denseInv_create_unconnected cfg)
  have hok := connOK_fully_go w ((create_unconnected cfg).node_genes.take cfg.input_nodes)
    (create_unconnected cfg).node_genes 0 (create_unconnected cfg).conn_genes connListOK_nil
  have hsub : ∀ kv ∈ (create_fully_connected cfg w).conn_genes,
      (1 ≤ kv.2.innodeid ∧ kv.2.innodeid ≤ cfg.input_nodes) ∧
      (cfg.input_nodes + 1 ≤ kv.2.outnodeid ∧
        kv.2.outnodeid ≤ cfg.input_nodes + cfg.output_nodes) := by
    intro kv hkv
    rcases fully_go_mem w ((create_unconnected cfg).node_genes.take cfg.input_nodes)
        (create_unconnected cfg).node_genes 0 (create_unconnected cfg).conn_genes kv hkv with
      hnil | ⟨inp, hi, ng0, hn, hty, wq, he⟩
    · exact absurd hnil (List.not_mem_nil _)
    · subst he
      have h1 := mem_take_input (denseInv_create_unconnected cfg) hi
      have h2 := output_id_range (denseInv_create_unconnected cfg) hn hty
      exact ⟨⟨h1.1, h1.2.1⟩, h2⟩
  refine ⟨hdense, rfl, ⟨hok.1, hok.2⟩, ?_, List.nodup_nil, ?_, ?_, ?_, ?_, ?_⟩
  · show ([] : List Nat).length + (cfg.input_nodes + cfg.output_nodes) =
      (ff_create_fully_connected cfg w).base.node_genes.length
    rw [hb]
    simp
  · intro x hx
    exact absurd hx (List.not_mem_nil _)
  · intro x hx1 hx2
    rw [hb] at hx2
    exact absurd hx1 (by omega)
  · intro kv hkv
    have hh := hsub kv hkv
    rw [hb]
    exact ⟨hh.1.1, by omega, Or.inl hh.1.2⟩
  · intro kv hkv
    have hh := hsub kv hkv
    rw [hb]
    exact ⟨hh.2.1, by omega⟩
  · intro kv hkv
    exact Or.inl (hsub kv hkv).1.2

theorem ffinv_minimal {cfg : Config} {cOr : Nat → Nat} {wOr : Nat → ℚ} {F : FFChromosome}
    (hres : ff_create_minimally_connected cfg cOr wOr = some F) : FFInv cfg F := by
  unfold ff_create_minimally_connected at hres
  cases hmin : create_minimally_connected cfg cOr wOr with
  | none => rw [hmin] at hres; exact Option.noConfusion hres
  | some c =>
    rw [hmin] at hres
    obtain rfl : _ = F := Option.some.inj hres
    unfold create_minimally_connected at hmin
    cases hgo : min_go cfg cOr wOr (create_unconnected cfg).node_genes
        (create_unconnected cfg).node_genes 0 (create_unconnected cfg).conn_genes with
    | none => rw [hgo] at hmin; exact Option.noConfusion hmin
    | some conns =>
      rw [hgo] at hmin
      obtain rfl : _ = c := Option.some.inj hmin
      have hdense : DenseInv cfg { create_unconnected cfg with conn_genes := conns } :=
        @denseInv_copy cfg (create_unconnected cfg) _ rfl rfl
          (denseInv_create_unconnected cfg)
      have hok := connOK_min_go cfg cOr wOr (create_unconnected cfg).node_genes
        (create_unconnected cfg).node_genes 0 (create_unconnected cfg).conn_genes conns
        connListOK_nil hgo
      have hsub : ∀ kv ∈ conns,
          (1 ≤ kv.2.innodeid ∧ kv.2.innodeid ≤ cfg.input_nodes) ∧
          (cfg.input_nodes + 1 ≤ kv.2.outnodeid ∧
            kv.2.outnodeid ≤ cfg.input_nodes + cfg.output_nodes) := by
        intro kv hkv
        rcases min_go_mem cfg cOr wOr (create_unconnected cfg).node_genes
            (create_unconnected cfg).node_genes 0 (create_unconnected cfg).conn_genes conns
            hgo kv hkv with hnil | ⟨inp, hi, ng0, hn, hty, wq, he⟩
        · exact absurd hnil (List.not_mem_nil _)
        · subst he
          have h1 := mem_take_input (denseInv_create_unconnected cfg) hi
          have h2 := output_id_range (denseInv_create_unconnected cfg) hn hty
          exact ⟨⟨h1.1, h1.2.1⟩, h2⟩
      refine ⟨hdense, rfl, ⟨hok.1, hok.2⟩, ?_, List.nodup_nil, ?_, ?_, ?_, ?_, ?_⟩
      · dsimp only
        rw [create_unconnected_len]
        simp
      · intro x hx
        exact absurd hx (List.not_mem_nil _)
      · intro x hx1 hx2
        dsimp only at hx2
        rw [create_unconnected_len] at hx2
        exact absurd hx1 (by omega)
      · intro kv hkv
        dsimp only at hkv ⊢
        have hh := hsub kv hkv
        rw [create_unconnected_len]
        exact ⟨hh.1.1, by omega, Or.inl hh.1.2⟩
      · intro kv hkv
        dsimp only at hkv ⊢
        have hh := hsub kv hkv
        rw [create_unconnected_len]
        exact ⟨hh.2.1, by omega⟩
      · intro kv hkv
        dsimp only at hkv
        exact Or.inl (hsub kv hkv).1.2

theorem ffinv_mutate {cfg : Config} {F F2 : FFChromosome} {r : FFMutRand}
    (h : FFInv cfg F) (hres : ff_mutate cfg F r = some F2) : FFInv cfg F2 := by
  unfold ff_mutate at hres
  cases hbr : branchOf cfg r.r1 r.r2 r.r3 with
  | addNode =>
    rw [hbr] at hres
    exact ffinv_add_node h hres
  | addConn =>
    rw [hbr] at hres
    exact ffinv_add_connection h hres
  | delConn =>
    rw [hbr] at hres
    obtain rfl : _ = F2 := Option.some.inj hres
    exact ffinv_delete_connection r.choiceIdx h
  | perturb =>
    rw [hbr] at hres
    obtain rfl : _ = F2 := Option.some.inj hres
    exact ffinv_perturb r.connW r.nodeB r.nodeR h

/-- Every reachable feedforward chromosome satisfies the invariant. -/
theorem ffreach_inv {cfg : Config} {F : FFChromosome} (h : FFReach cfg F) : FFInv cfg F := by
  induction h with
  | unconnected => exact ffinv_unconnected cfg
  | minimal cOr wOr c hmin => exact ffinv_minimal hmin
  | fully w => exact ffinv_fully cfg w
  | mutStep c c2 r hc hres ih => exact ffinv_mutate ih hres

theorem ffPredB_of_inv {cfg : Config} {F : FFChromosome} (h : FFInv cfg F) :
    ∀ kv ∈ F.base.conn_genes, ffPredB F kv.2 = true := by
  intro kv hkv
  obtain ⟨hs1, hs2, hs3⟩ := h.conn_src kv hkv
  obtain ⟨ht1, ht2⟩ := h.conn_tgt kv hkv
  obtain ⟨nda, hfa, hida, htya⟩ := findNode_dense h.dense hs1 hs2
  obtain ⟨ndb, hfb, hidb, htyb⟩ := findNode_dense h.dense (by omega) ht2
  unfold ffPredB
  rw [hfa, hfb]
  dsimp only
  rcases h.conn_ff kv hkv with h1 | h2 | ⟨i, j, hi, hj, hij⟩
  · have hA : nda.type = NodeType.INPUT := by
      rw [htya]
      exact zoneType_input (by omega)
    rw [hA]
    simp
  · have hB : ndb.type = NodeType.OUTPUT := by
      rw [htyb]
      exact zoneType_output (by omega) (by omega)
    rw [hB]
    simp
  · rw [hi, hj]
    simp [hij]

/-- Claim C1: for the feedforward variant, after any sequence of completed
`mutate()` calls starting from a factory-constructed `FFChromosome`, every
stored connection gene satisfies the feedforward predicate: its source is
an input node, or its target is an output node, or the source's position
in the hidden-node order `__node_order` is strictly before the target's
position. -/
theorem ff_feedforward_closure {cfg : Config} {F : FFChromosome} (h : FFReach cfg F) :
    (F.base.conn_genes.all fun kv => ffPredB F kv.2) = true := by
  rw [List.all_eq_true]
  intro kv hkv
  exact ffPredB_of_inv (ffreach_inv h) kv hkv

/-- Witness: the feedforward-closure theorem applied to the concrete
fully connected 1-input/1-output feedforward chromosome. -/
theorem ff_feedforward_closure_witness :
    ((ff_create_fully_connected cfgAdd wOne).base.conn_genes.all fun kv =>
      ffPredB (ff_create_fully_connected cfgAdd wOne) kv.2) = true :=
  ff_feedforward_closure (FFReach.fully wOne)

end Neat
